import Mathlib

/-!
Verification development for the piano fingering / arm-motion planner.

The definitions below are shallow embeddings of the Python sources:
  * `src/src/midi_handler/notes_to_fingering.py`   (white-key indexing, black-key
    rules, and the dynamic-programming planner `find_arm_positions_optimized`)
  * `src/src/midi_handler/midi_to_musical_notation.py` (`get_note_name`,
    `midi_to_notes`)
  * `src/src/midi_handler/merge_hand_fingering.py` (`note_to_midi_number`,
    the note-list construction of `process_midi_to_fingering`)
  * `src/src/record/midi_record_intime_v2.py` (`MidiPianoRecorder.put_message`)

Modelling conventions:
  * Python strings are `List Char`; `str.upper`/`str.replace` and the anchored
    regular expressions are translated character by character.
  * Python floats are exact rationals `ℚ`; `float('inf')` is `Option ℚ`s `none`,
    and the comparison `x < y` on such values is `infLt`.
  * Python integers are `ℤ` (the code uses `-1` sentinels); list indexing that
    the source performs with possibly negative indices is `pyRowGet`.
  * The DP tables `dp` / `prev_pos` / `move_count` (rows of length 53, one slot
    per arm position 0..52) are rows `ℕ → Cell`: a row maps a position to the
    triple that the three Python arrays hold at that position; positions never
    written keep the initial `⟨inf, -1, 0⟩`.
-/

/-- Uppercase a note string, as Python `note.upper()`. -/
def upperStr (s : List Char) : List Char := s.map Char.toUpper

/-- Replace every non-overlapping occurrence of the two-character pattern
`p1 p2` by `repl`, scanning left to right: Python `s.replace(p1+p2, repl)`.
(The source guards each replace with `if pat in note`, which is equivalent.) -/
def replacePair (p1 p2 : Char) (repl : List Char) : List Char → List Char
  | [] => []
  | [c] => [c]
  | c1 :: c2 :: rest =>
    if c1 = p1 ∧ c2 = p2 then repl ++ replacePair p1 p2 repl rest
    else c1 :: replacePair p1 p2 repl (c2 :: rest)

/-- The enharmonic-normalisation chain of `note_to_white_key_index`
(notes_to_fingering.py lines 13-32), applied after uppercasing. -/
def normalizeEnharmonics (s : List Char) : List Char :=
  let s1 := replacePair 'B' '#' ['C'] s
  let s2 := replacePair 'E' '#' ['F'] s1
  let s3 := replacePair 'C' 'B' ['B'] s2
  let s4 := replacePair 'F' 'B' ['E'] s3
  let s5 := replacePair 'D' 'B' ['C', '#'] s4
  let s6 := replacePair 'E' 'B' ['D', '#'] s5
  let s7 := replacePair 'G' 'B' ['F', '#'] s6
  let s8 := replacePair 'A' 'B' ['G', '#'] s7
  replacePair 'B' 'B' ['A', '#'] s8

/-- Character is an ASCII digit. -/
def isDigitChar (c : Char) : Bool := '0' ≤ c ∧ c ≤ '9'

/-- Numeric value of a digit run (most significant first). -/
def digitsVal (ds : List Char) : ℕ :=
  ds.foldl (fun acc c => acc * 10 + (c.toNat - 48)) 0

/-- Anchored match of the regex `([A-G])([#b]?)(\d+)`: letter, optional
accidental, then one or more digits (trailing characters ignored, as
`re.match`). Returns `(letter, accidental?, octave)`. -/
def matchNoteRegex (s : List Char) : Option (Char × Option Char × ℕ) :=
  match s with
  | [] => none
  | c0 :: rest =>
    if 'A' ≤ c0 ∧ c0 ≤ 'G' then
      match rest with
      | c1 :: rest2 =>
        if c1 = '#' ∨ c1 = 'b' then
          let ds := rest2.takeWhile isDigitChar
          if ds = [] then none else some (c0, some c1, digitsVal ds)
        else
          let ds := rest.takeWhile isDigitChar
          if ds = [] then none else some (c0, none, digitsVal ds)
      | [] => none
    else none

/-- Anchored match of the regex `([A-G])([#b])(\d+)` (accidental required),
used by `get_black_key_finger` and `get_black_key_region`. -/
def matchBlackRegex (s : List Char) : Option (Char × Char × ℕ) :=
  match s with
  | c0 :: c1 :: rest2 =>
    if ('A' ≤ c0 ∧ c0 ≤ 'G') ∧ (c1 = '#' ∨ c1 = 'b') then
      let ds := rest2.takeWhile isDigitChar
      if ds = [] then none else some (c0, c1, digitsVal ds)
    else none
  | _ => none

/-- White-key index of a letter inside octaves 1..7, per the branch at
notes_to_fingering.py lines 58-74; `none` for a letter outside A-G
(unreachable after the regex). -/
def whiteIdxInOctave (letter : Char) (octave : ℕ) : Option ℤ :=
  if letter = 'C' then some ((octave - 1 : ℤ) * 7 + 3)
  else if letter = 'D' then some ((octave - 1 : ℤ) * 7 + 4)
  else if letter = 'E' then some ((octave - 1 : ℤ) * 7 + 5)
  else if letter = 'F' then some ((octave - 1 : ℤ) * 7 + 6)
  else if letter = 'G' then some ((octave - 1 : ℤ) * 7 + 7)
  else if letter = 'A' then some ((octave : ℤ) * 7 + 1)
  else if letter = 'B' then some ((octave : ℤ) * 7 + 2)
  else none

/-- Embeds `note_to_white_key_index` (notes_to_fingering.py lines 1-80):
normalise, parse, map the letter and octave to the white-key index 1..52,
with `-1` for anything unsupported. -/
def note_to_white_key_index (note : List Char) : ℤ :=
  let n := normalizeEnharmonics (upperStr note)
  match matchNoteRegex n with
  | none => -1
  | some (letter, _, octave) =>
    if letter = 'C' ∨ letter = 'D' ∨ letter = 'E' ∨ letter = 'F' ∨
        letter = 'G' ∨ letter = 'A' ∨ letter = 'B' then
      if octave = 0 then
        if letter = 'A' then 1 else if letter = 'B' then 2 else -1
      else
        match whiteIdxInOctave letter octave with
        | none => -1
        | some idx => if 1 ≤ idx ∧ idx ≤ 52 then idx else -1
    else -1

/-- Embeds `is_black_key`: the raw note string contains `#` or a lowercase `b`. -/
def is_black_key (note : List Char) : Bool := note.contains '#' || note.contains 'b'

/-- Hands, the values of the Python `hand_type` string parameter. -/
inductive Hand
  | left
  | right
  | both
deriving DecidableEq

/-- Embeds `get_black_key_finger` (notes_to_fingering.py lines 118-179):
the fixed black-key fingering table, `-1` when no rule applies. -/
def get_black_key_finger (note : List Char) (hand : Hand) : ℤ :=
  match matchBlackRegex (upperStr note) with
  | none => -1
  | some (letter, accidental, octave) =>
    if accidental ≠ '#' then -1
    else
      match hand with
      | .left =>
        if letter = 'A' ∧ octave = 0 then 4
        else if letter = 'C' ∧ 1 ≤ octave ∧ octave ≤ 3 then 3
        else if letter = 'G' ∧ 1 ≤ octave ∧ octave ≤ 3 then 3
        else if letter = 'D' ∧ 1 ≤ octave ∧ octave ≤ 3 then 2
        else if letter = 'A' ∧ 1 ≤ octave ∧ octave ≤ 3 then 2
        else if letter = 'F' ∧ 1 ≤ octave ∧ octave ≤ 3 then 4
        else -1
      | .right =>
        if octave < 4 then -1
        else if letter = 'C' then 2
        else if letter = 'F' then 2
        else if letter = 'D' then 3
        else if letter = 'G' then 3
        else if letter = 'A' then 4
        else -1
      | .both => -1

/-- Embeds `get_black_key_region`: 1 for C#/D#, 2 for F#/G#/A#, else -1. -/
def get_black_key_region (note : List Char) : ℤ :=
  if ¬ is_black_key note then -1
  else
    match matchBlackRegex (upperStr note) with
    | none => -1
    | some (letter, _, _) =>
      if letter = 'C' ∨ letter = 'D' then 1
      else if letter = 'F' ∨ letter = 'G' ∨ letter = 'A' then 2
      else -1

/-- Decimal digits of a natural number (fuel-based so it reduces in the
kernel); renders Python `str(n)` for `n ≥ 0`. -/
def natDigitsAux : ℕ → ℕ → List Char
  | 0, _ => []
  | fuel + 1, n =>
    if n < 10 then [Char.ofNat (48 + n)]
    else natDigitsAux fuel (n / 10) ++ [Char.ofNat (48 + n % 10)]

/-- Decimal rendering of a natural number. -/
def natDigits (n : ℕ) : List Char := natDigitsAux (n + 1) n

/-- Decimal rendering of an integer, as Python `f"{z}"`. -/
def intDigits (z : ℤ) : List Char :=
  if z < 0 then '-' :: natDigits z.natAbs else natDigits z.toNat

/-- The twelve pitch-class names used by `get_note_name`. -/
def pitchClassNames : List (List Char) :=
  [['C'], ['C', '#'], ['D'], ['D', '#'], ['E'], ['F'], ['F', '#'], ['G'],
   ['G', '#'], ['A'], ['A', '#'], ['B']]

/-- Embeds `get_note_name` (midi_to_musical_notation.py lines 19-32):
`notes[n % 12]` followed by the octave `n // 12 - 1`. -/
def get_note_name (n : ℕ) : List Char :=
  pitchClassNames.getD (n % 12) [] ++ intDigits ((n : ℤ) / 12 - 1)

/-- The semitone offsets of the note letters in `note_to_midi_number`. -/
def noteOffsets (c : Char) : ℤ :=
  if c = 'C' then 0 else if c = 'D' then 2 else if c = 'E' then 4
  else if c = 'F' then 5 else if c = 'G' then 7 else if c = 'A' then 9
  else if c = 'B' then 11 else 0

/-- Numeric value of a single digit character; `none` where Python
`int(ch)` would raise. -/
def charDigit (c : Char) : Option ℤ :=
  if isDigitChar c then some ((c.toNat : ℤ) - 48) else none

/-- Embeds `note_to_midi_number` (merge_hand_fingering.py lines 11-49):
first character is the letter, last character the octave digit; `#` adds 1,
`b` subtracts 1; strings shorter than 2 characters give 60.  `none` models
the `ValueError` Python would raise on a non-digit final character. -/
def note_to_midi_number (s : List Char) : Option ℤ :=
  if 2 ≤ s.length then
    let base := s.headD ' '
    match charDigit (s.getLastD ' ') with
    | none => none
    | some octave =>
      let offset : ℤ :=
        if s.contains '#' then noteOffsets base + 1
        else if s.contains 'b' then noteOffsets base - 1
        else noteOffsets base
      some ((octave + 1) * 12 + offset)
  else some 60

/-- Timing record for one note: the dictionaries
`{'start_time': .., 'duration': .., 'velocity': ..}`. -/
structure Timing where
  start_time : ℚ
  duration : ℚ
  velocity : ℚ
deriving DecidableEq

/-- A note that survived the hardware-range filter, with its original index
(used to look up its timing) and white-key index. -/
structure VNote where
  idx : ℕ
  note : List Char
  w : ℤ
deriving DecidableEq

/-- Range admissibility of a white-key index for a hand
(notes_to_fingering.py lines 241-261): left A0..B3, right C4..C8,
both unrestricted. -/
def handRangeOK (hand : Hand) (w : ℤ) : Bool :=
  match hand with
  | .left => 1 ≤ w ∧ w ≤ 23
  | .right => 24 ≤ w ∧ w ≤ 52
  | .both => true

/-- The filtering loop of `find_arm_positions_optimized` (lines 238-274):
keep the notes whose white-key index is not -1 and lies in the hand's range,
remembering the original index. -/
def filterValid (notesList : List (List Char)) (hand : Hand) : List VNote :=
  notesList.enum.filterMap (fun p =>
    let w := note_to_white_key_index p.2
    if w = -1 then none
    else if handRangeOK hand w then some ⟨p.1, p.2, w⟩ else none)

/-- The timing list actually used by the planner: `note_timing[i]` for each
valid note when a timing list was supplied (lines 266-267), otherwise the
defaults `{'start_time': i*0.5, 'duration': 0.5, 'velocity': 64}`
(line 290).  Out-of-bounds lookups (which would raise in Python) are
modelled with a zero default. -/
def effTiming (valid : List VNote) (noteTiming : List Timing) : List Timing :=
  if noteTiming = [] then
    (List.range valid.length).map (fun (i : ℕ) => ⟨(i : ℚ) * (1 / 2), 1 / 2, 64⟩)
  else
    valid.map (fun v => noteTiming.getD v.idx ⟨0, 0, 0⟩)

/-- The admissible arm-position window of one note
(notes_to_fingering.py lines 301-353): the base reach window, then the
forced-position overrides for range-boundary pitches.  `hand = both`
takes the non-left branch of the base window and no overrides. -/
def rangeForNote (hand : Hand) (w : ℤ) : ℤ × ℤ :=
  let base : ℤ × ℤ :=
    match hand with
    | .left => (max 1 (w - 4), min 52 w)
    | _ => (max 1 (w - 5), min 52 w)
  match hand with
  | .right =>
    if w = 24 then (24, 24)
    else if w = 51 then (46, 47)
    else if w = 52 then (47, 48)
    else base
  | .left =>
    if w = 23 then (19, 19)
    else if w = 1 then (1, 1)
    else if w = 2 then (2, 2)
    else base
  | .both => base

/-- The integers `lo, lo+1, ..., hi`, i.e. Python `range(lo, hi+1)`. -/
def posList (r : ℤ × ℤ) : List ℤ :=
  (List.range (r.2 + 1 - r.1).toNat).map (fun (k : ℕ) => r.1 + (k : ℤ))

/-- One slot of the three DP arrays: `dp[i][p]`, `prev_pos[i][p]`,
`move_count[i][p]`.  `cost = none` is `float('inf')`. -/
structure Cell where
  cost : Option ℚ
  prev : ℤ
  moves : ℕ
deriving DecidableEq

/-- The initial slot value: `inf` cost, `-1` back-pointer, `0` moves. -/
def initCell : Cell := ⟨none, -1, 0⟩

/-- Comparison of possibly-infinite costs, as Python `<` with
`float('inf')` on either side. -/
def infLt (a b : Option ℚ) : Bool :=
  match a, b with
  | none, _ => false
  | some _, none => true
  | some x, some y => decide (x < y)

/-- The cost the code adds for the transition from position `q` (with
`moves` accumulated moves) to position `p`: the Python
`distance + single_move_penalty + move_penalty * moves` with
`moves = move_count[i-1][prev] + (1 if current_pos != prev_pos_val else 0)`
and `single_move_penalty = distance_penalty * distance**2` for a positive
distance (notes_to_fingering.py lines 394-400). -/
def transCostQ (mp dpen : ℚ) (moves : ℕ) (q p : ℤ) : ℚ :=
  ((|p - q| : ℤ) : ℚ) + (if 0 < |p - q| then dpen * ((|p - q| : ℤ) : ℚ) ^ 2 else 0) +
    mp * ((moves + if p ≠ q then 1 else 0 : ℕ) : ℚ)

/-- The updated slot when predecessor `q` wins the inner minimisation. -/
def stepCand (mp dpen : ℚ) (prevRow : ℕ → Cell) (p q : ℤ) (cc : ℚ) : Cell :=
  ⟨some (cc + transCostQ mp dpen (prevRow q.toNat).moves q p), q,
    (prevRow q.toNat).moves + (if p ≠ q then 1 else 0)⟩

/-- One iteration of the inner DP loop (notes_to_fingering.py
lines 378-405): skip an infinite predecessor, skip a positive move after a
note of at most 0.25 s, otherwise update the running minimum when the
candidate cost is strictly smaller. -/
def innerStep (mp dpen durPrev : ℚ) (prevRow : ℕ → Cell) (p : ℤ)
    (st : Cell) (q : ℤ) : Cell :=
  match (prevRow q.toNat).cost with
  | none => st
  | some cc =>
    if 0 < |p - q| ∧ durPrev ≤ 1 / 4 then st
    else if infLt (some (cc + transCostQ mp dpen (prevRow q.toNat).moves q p)) st.cost
      then stepCand mp dpen prevRow p q cc
      else st

/-- The inner DP loop (notes_to_fingering.py lines 373-405): scan the
previous note's window for the predecessor minimising the accumulated
cost of playing note `i` at position `p`. -/
def innerMin (mp dpen : ℚ) (durPrev : ℚ) (prevRange : ℤ × ℤ)
    (prevRow : ℕ → Cell) (p : ℤ) : Cell :=
  (posList prevRange).foldl (innerStep mp dpen durPrev prevRow p) initCell

/-- Row 0 of the DP tables (lines 360-365): cost 0 at every position of the
first note's window, `initCell` elsewhere. -/
def row0fn (r : ℤ × ℤ) : ℕ → Cell :=
  fun j => if r.1 ≤ (j : ℤ) ∧ (j : ℤ) ≤ r.2 then ⟨some 0, -1, 0⟩ else initCell

/-- Row `i` of the DP tables from row `i-1` (lines 368-409): `innerMin` at
the positions of note `i`'s window, `initCell` elsewhere. -/
def dpStepRow (mp dpen : ℚ) (durPrev : ℚ) (pr cr : ℤ × ℤ)
    (prev : ℕ → Cell) : ℕ → Cell :=
  fun j =>
    if cr.1 ≤ (j : ℤ) ∧ (j : ℤ) ≤ cr.2 then
      innerMin mp dpen durPrev pr prev (j : ℤ)
    else initCell

/-- All DP rows after row 0, one per triple
`((window i-1, window i), duration of note i-1)`. -/
def dpRowsAux (mp dpen : ℚ) (prev : ℕ → Cell) :
    List (((ℤ × ℤ) × (ℤ × ℤ)) × ℚ) → List (ℕ → Cell)
  | [] => []
  | ((pr, cr), dur) :: rest =>
    let nr := dpStepRow mp dpen dur pr cr prev
    nr :: dpRowsAux mp dpen nr rest

/-- The final scan (lines 411-422): the first position of the last note's
window with strictly smallest cost, together with that cost and its move
count; `(inf, -1, 0)` when every slot is infinite. -/
def selectBest (row : ℕ → Cell) (r : ℤ × ℤ) : Option ℚ × ℤ × ℕ :=
  (posList r).foldl (fun st q =>
    if infLt (row q.toNat).cost st.1 then ((row q.toNat).cost, q, (row q.toNat).moves)
    else st) (none, -1, 0)

/-- Read a length-53 DP row at a Python index, which may be negative:
`row[-1]` is `row[52]`.  (The backtracking loop indexes `prev_pos[i+1]`
with `arm_positions[i+1]`, which is `-1` on the infeasible paths.) -/
def pyRowGet (row : ℕ → Cell) (i : ℤ) : Cell :=
  row ((if 0 ≤ i then i else 53 + i).toNat)

/-- The backtracking loop (lines 424-428), processing the rows from the
last down to row 1 and prepending each recovered position. -/
def btAux : List (ℕ → Cell) → ℤ → List ℤ → List ℤ
  | [], a, acc => a :: acc
  | r :: rs, a, acc => btAux rs (pyRowGet r a).prev (a :: acc)

/-- The per-transition data of the DP: for each `i ≥ 1` the windows of
notes `i-1` and `i` and the duration of note `i-1`. -/
def dpTriples (ranges : List (ℤ × ℤ)) (timing : List Timing) :
    List (((ℤ × ℤ) × (ℤ × ℤ)) × ℚ) :=
  (ranges.zip ranges.tail).zip (timing.map (·.duration))

/-- The DP rows after row 0. -/
def dpTailRows (mp dpen : ℚ) (ranges : List (ℤ × ℤ)) (timing : List Timing) :
    List (ℕ → Cell) :=
  dpRowsAux mp dpen (row0fn (ranges.headD (0, 0))) (dpTriples ranges timing)

/-- The last DP row. -/
def dpLastRow (mp dpen : ℚ) (ranges : List (ℤ × ℤ)) (timing : List Timing) :
    ℕ → Cell :=
  (row0fn (ranges.headD (0, 0)) :: dpTailRows mp dpen ranges timing).getLastD
    (row0fn (ranges.headD (0, 0)))

/-- The final scan of the last row over the last note's window. -/
def dpBest (mp dpen : ℚ) (ranges : List (ℤ × ℤ)) (timing : List Timing) :
    Option ℚ × ℤ × ℕ :=
  selectBest (dpLastRow mp dpen ranges timing) (ranges.getLastD (0, 0))

/-- The whole dynamic programme on the filtered data: windows and timings in,
`(arm positions, min cost, move count)` out.  Mirrors lines 355-428 for a
nonempty note list. -/
def runDP (mp dpen : ℚ) (ranges : List (ℤ × ℤ)) (timing : List Timing) :
    List ℤ × Option ℚ × ℕ :=
  (btAux (dpTailRows mp dpen ranges timing).reverse
      (dpBest mp dpen ranges timing).2.1 [],
    (dpBest mp dpen ranges timing).1,
    (dpBest mp dpen ranges timing).2.2)

/-- Finger assignment for one note (notes_to_fingering.py lines 434-558):
black keys use `get_black_key_finger`, falling back to the hand-specific
offset tables when no rule applies; white keys use the hand-specific offset
tables directly.  Returns `(finger, use_extended_pinky)`. -/
def assignFinger (hand : Hand) (note : List Char) (w a : ℤ) : ℤ × Bool :=
  if is_black_key note then
    let f := get_black_key_finger note hand
    if f = -1 then
      let k := w - a
      match hand with
      | .right =>
        if k = 0 then (5, false)
        else if k = 1 then (5, true)
        else if k = 2 then (4, false)
        else if k = 3 then (3, false)
        else if k = 4 then (2, false)
        else if k = 5 then (1, false)
        else (5, false)
      | _ =>
        if k = 0 then (5, false)
        else if k = 1 then (4, false)
        else if k = 2 then (3, false)
        else if k = 3 then (2, false)
        else if k = 4 then (1, false)
        else (5, false)
    else
      (f, f = 5 ∧ hand = .right ∧ w - a = 5)
  else
    let k := w - a
    match hand with
    | .right =>
      if k = 0 then (1, false)
      else if k = 1 then (2, false)
      else if k = 2 then (3, false)
      else if k = 3 then (4, false)
      else if k = 4 then (5, false)
      else if k = 5 then (5, true)
      else (1, false)
    | _ =>
      if k = 0 then (5, false)
      else if k = 1 then (4, false)
      else if k = 2 then (3, false)
      else if k = 3 then (2, false)
      else if k = 4 then (1, false)
      else (5, false)

/-- One entry of the planner's output list (the `result_data` dictionary,
lines 591-604).  `pinkyExtended` models `pinky_key_type == 'extended'`. -/
structure PlannedNote where
  note : List Char
  white_key_index : ℤ
  arm_position : ℤ
  finger : ℤ
  pinkyExtended : Bool
  start_time : ℚ
  duration : ℚ
  end_time : ℚ
  velocity : ℚ
  hand : Hand
  is_black : Bool
  region : ℤ
deriving DecidableEq

/-- Build one output entry from a valid note, its timing and its arm
position. -/
def mkPlanned (hand : Hand) (v : VNote) (t : Timing) (a : ℤ) : PlannedNote :=
  let fa := assignFinger hand v.note v.w a
  { note := v.note
    white_key_index := v.w
    arm_position := a
    finger := fa.1
    pinkyExtended := fa.1 = 5 ∧ fa.2
    start_time := t.start_time
    duration := t.duration
    end_time := t.start_time + t.duration
    velocity := t.velocity
    hand := hand
    is_black := is_black_key v.note
    region := if is_black_key v.note then get_black_key_region v.note else 0 }

/-- The output-building loop (lines 580-605), walking the three lists in
step. -/
def buildOutput (hand : Hand) : List VNote → List Timing → List ℤ → List PlannedNote
  | v :: vs, t :: ts, a :: as => mkPlanned hand v t a :: buildOutput hand vs ts as
  | _, _, _ => []

/-- The planner's return value: the output list, the minimal DP cost
(the value the callers report as `move_distance`), and the move count. -/
structure PlanResult where
  output : List PlannedNote
  cost : Option ℚ
  moves : ℕ
deriving DecidableEq

/-- Embeds `find_arm_positions_optimized` (notes_to_fingering.py
lines 213-607): filter the notes to the hand's hardware range, resolve the
timing list, compute each note's admissible arm-position window, run the
dynamic programme, backtrack the positions and assign fingers. -/
def find_arm_positions_optimized (mp dpen : ℚ) (notesList : List (List Char))
    (noteTiming : List Timing) (hand : Hand) : PlanResult :=
  let valid := filterValid notesList hand
  match valid with
  | [] => ⟨[], some 0, 0⟩
  | _ =>
    let timing := effTiming valid noteTiming
    let ranges := valid.map (fun v => rangeForNote hand v.w)
    let res := runDP mp dpen ranges timing
    ⟨buildOutput hand valid timing res.1, res.2.1, res.2.2⟩

/-- Outcome of one call to `queue.Queue.put(message)` with `block=True`
(the default): the item is appended when a slot is free, otherwise the
call blocks until the consumer removes an item. -/
inductive PutOutcome (α : Type)
  | enqueued (q : List α)
  | blocked
deriving DecidableEq

/-- Embeds `MidiPianoRecorder.put_message` (midi_record_intime_v2.py
lines 32-39): a plain blocking `put` on `queue.Queue(maxsize=100)`. -/
def put_message {α : Type} (q : List α) (m : α) : PutOutcome α :=
  if q.length < 100 then .enqueued (q ++ [m]) else .blocked

/-- A MIDI track message, restricted to the attributes `midi_to_notes`
consumes for note extraction: channel, pitch, velocity and delta time in
ticks.  `other` stands for every message type that only advances the
running tick counter. -/
inductive MidiMsg
  | noteOn (channel note velocity time : ℕ)
  | noteOff (channel note time : ℕ)
  | other (time : ℕ)
deriving DecidableEq

/-- A pending `note_on`, as stored in `active_notes`. -/
structure Pending where
  track : ℕ
  channel : ℕ
  note : ℕ
  start_time : ℕ
  velocity : ℕ
deriving DecidableEq

/-- One emitted note record of `midi_to_notes`
(midi_to_musical_notation.py lines 193-207).  Times are in ticks; the
parallel `*_sec` fields are these values scaled by the constant
`seconds_per_tick` and are not needed by the claims below. -/
structure NoteRec where
  track : ℕ
  channel : ℕ
  note : ℕ
  note_name : List Char
  start_time : ℕ
  duration : ℕ
  velocity : ℕ
deriving DecidableEq

/-- The `active_notes` defaultdict, keyed by `(note, channel)`. -/
def ActiveMap : Type := (ℕ × ℕ) → List Pending

/-- Extraction state while walking the tracks: current tick, active notes,
emitted notes (in emission order). -/
structure ExtractState where
  time : ℕ
  active : ActiveMap
  notes : List NoteRec

/-- The `note_off` handling shared by both end-of-note branches. -/
def procNoteEnd (active : ActiveMap) (notes : List NoteRec) (time c n : ℕ) :
    ExtractState :=
  match active (n, c) with
  | [] => ⟨time, active, notes⟩
  | pend :: rest =>
    let dur := time - pend.start_time
    let active' : ActiveMap := fun k => if k = (n, c) then rest else active k
    if 0 < dur then
      ⟨time, active',
        notes ++ [⟨pend.track, pend.channel, n, get_note_name n,
                   pend.start_time, dur, pend.velocity⟩]⟩
    else ⟨time, active', notes⟩

/-- Process one message of a track (midi_to_musical_notation.py
lines 122-207, note-event branches): `note_on` with positive velocity
pushes a pending entry; `note_off` (or `note_on` with velocity 0) pops the
earliest pending entry of the same `(note, channel)` and emits a record
when the duration is positive; everything else only advances time. -/
def procMsg (trackIdx : ℕ) (st : ExtractState) (msg : MidiMsg) : ExtractState :=
  match msg with
  | .other t => { st with time := st.time + t }
  | .noteOn c n v t =>
    let time := st.time + t
    if 0 < v then
      let pend : Pending := ⟨trackIdx, c, n, time, v⟩
      { time := time
        active := fun k => if k = (n, c) then st.active (n, c) ++ [pend] else st.active k
        notes := st.notes }
    else
      procNoteEnd st.active st.notes time c n
  | .noteOff c n t =>
    procNoteEnd st.active st.notes (st.time + t) c n

/-- Walk one track; the tick counter restarts at 0, the active map and the
emitted notes are carried across tracks as in the source. -/
def procTrack (trackIdx : ℕ) (active : ActiveMap) (notes : List NoteRec)
    (msgs : List MidiMsg) : ActiveMap × List NoteRec :=
  let st := msgs.foldl (procMsg trackIdx) ⟨0, active, notes⟩
  (st.active, st.notes)

/-- Walk all tracks in order. -/
def procTracks (trackIdx : ℕ) (active : ActiveMap) (notes : List NoteRec) :
    List (List MidiMsg) → List NoteRec
  | [] => notes
  | tr :: rest =>
    let p := procTrack trackIdx active notes tr
    procTracks (trackIdx + 1) p.1 p.2 rest

/-- Stable insertion keeping earlier equal keys first, matching the
stability of Python `list.sort`. -/
def insertByStart (x : NoteRec) : List NoteRec → List NoteRec
  | [] => [x]
  | y :: ys => if y.start_time ≤ x.start_time then y :: insertByStart x ys
               else x :: y :: ys

/-- Stable sort by `start_time`, as `notes.sort(key=lambda x: x['start_time'])`. -/
def sortByStart (l : List NoteRec) : List NoteRec :=
  l.foldl (fun acc x => insertByStart x acc) []

/-- Embeds the note extraction of `midi_to_notes`
(midi_to_musical_notation.py lines 69-338): every track is scanned with a
per-track tick counter, matched `note_on`/`note_off` pairs of positive
duration are emitted regardless of their channel, and the result is sorted
by start time.  The controller/tempo side artifacts are not modelled. -/
def midi_to_notes (tracks : List (List MidiMsg)) : List NoteRec :=
  sortByStart (procTracks 0 (fun _ => []) [] tracks)

/-- The note-list construction of `process_midi_to_fingering`
(merge_hand_fingering.py lines 174-214) with the two transposition options
at their defaults (disabled): keep each extracted note's name unless the
low-note filter is enabled and the note's MIDI number is at or below the
threshold.  (`note_to_midi_number` never returns `none` on extractor
names, which always end in a digit.) -/
def processNotesList (notes : List NoteRec) (filterLow : Bool)
    (thresholdMidi : ℤ) : List (List Char) :=
  notes.filterMap (fun nr =>
    if filterLow ∧ (note_to_midi_number nr.note_name).getD 0 ≤ thresholdMidi then
      none
    else some nr.note_name)

/-- Sum of the absolute differences of consecutive arm positions: the
quantity the specification calls the total move distance. -/
def sumAbsMoves : List ℤ → ℤ
  | a :: b :: rest => |b - a| + sumAbsMoves (b :: rest)
  | _ => 0

/-- The transition cost stated by the specification:
`d + P_dist * d^2 + P_move * [d > 0]` with `d = |a_i - a_(i-1)|`. -/
def specTransCost (mp dpen : ℚ) (q p : ℤ) : ℚ :=
  let d : ℚ := ((|p - q| : ℤ) : ℚ)
  d + dpen * d ^ 2 + (if p ≠ q then mp else 0)

/-- Total path cost under the specification's cost model: the sum of
`specTransCost` over consecutive positions. -/
def specPathCost (mp dpen : ℚ) : List ℤ → ℚ
  | a :: b :: rest => specTransCost mp dpen a b + specPathCost mp dpen (b :: rest)
  | _ => 0

/-- Cost actually accumulated by the code along a path, starting from
position `prev` with `m` moves already made: every transition is charged
`d + P_dist * d^2` plus `P_move` times the cumulative move count up to and
including that transition. -/
def cumulFrom (mp dpen : ℚ) (prev : ℤ) (m : ℕ) : List ℤ → ℚ
  | [] => 0
  | a :: rest =>
    let d : ℤ := |a - prev|
    let m' : ℕ := m + (if a ≠ prev then 1 else 0)
    ((d : ℚ) + (if 0 < d then dpen * (d : ℚ) ^ 2 else 0) + mp * (m' : ℚ)) +
      cumulFrom mp dpen a m' rest

/-- Total path cost under the code's cost model (cumulative move-count
charging). -/
def cumulPathCost (mp dpen : ℚ) : List ℤ → ℚ
  | [] => 0
  | a :: rest => cumulFrom mp dpen a 0 rest

/-- Number of moving transitions along a path continued from `prev`. -/
def movesFrom (prev : ℤ) : List ℤ → ℕ
  | [] => 0
  | a :: rest => (if a ≠ prev then 1 else 0) + movesFrom a rest

/-- Number of moving transitions of a path. -/
def pathMoves : List ℤ → ℕ
  | [] => 0
  | a :: rest => movesFrom a rest

/-- Membership of an arm position in a window. -/
def inWin (r : ℤ × ℤ) (a : ℤ) : Prop := r.1 ≤ a ∧ a ≤ r.2

instance (r : ℤ × ℤ) (a : ℤ) : Decidable (inWin r a) := by
  unfold inWin; infer_instance

/-- Admissibility of the continuation of a path along the DP triples:
each position lies in its note's window and no position change follows a
note of duration at most 0.25 s. -/
def AdmSteps (prev : ℤ) : List (((ℤ × ℤ) × (ℤ × ℤ)) × ℚ) → List ℤ → Prop
  | [], [] => True
  | t :: ts, a :: rest =>
    inWin t.1.2 a ∧ (a ≠ prev → ¬ t.2 ≤ 1 / 4) ∧ AdmSteps a ts rest
  | _, _ => False

/-- Admissibility of a whole arm-position assignment. -/
def Admissible (r0 : ℤ × ℤ) (ts : List (((ℤ × ℤ) × (ℤ × ℤ)) × ℚ))
    (as : List ℤ) : Prop :=
  match as with
  | [] => False
  | a :: rest => inWin r0 a ∧ AdmSteps a ts rest

/-- A transition the short-note guard allows: no move, or a predecessor
longer than 0.25 s. -/
def transAllowed (dur : ℚ) (q p : ℤ) : Bool :=
  decide (p = q) || !(decide (dur ≤ 1 / 4))

/-- Forward reachability step through one DP layer. -/
def reachStep (S : List ℤ) (t : ((ℤ × ℤ) × (ℤ × ℤ)) × ℚ) : List ℤ :=
  (posList t.1.2).filter (fun p => S.any (fun q => transAllowed t.2 q p))

/-- Positions of the last note reachable by an admissible assignment. -/
def feasibleSets (r0 : ℤ × ℤ) (ts : List (((ℤ × ℤ) × (ℤ × ℤ)) × ℚ)) : List ℤ :=
  ts.foldl reachStep (posList r0)

/-- Decidable feasibility of the planner's constraint system on given
inputs, mirroring the data preparation of `find_arm_positions_optimized`:
`true` iff some admissible arm-position assignment exists (vacuously true
when no note survives filtering). -/
def planFeasible (notesList : List (List Char)) (noteTiming : List Timing)
    (hand : Hand) : Bool :=
  let valid := filterValid notesList hand
  match valid with
  | [] => true
  | _ =>
    let timing := effTiming valid noteTiming
    let ranges := valid.map (fun v => rangeForNote hand v.w)
    let triples := (ranges.zip ranges.tail).zip (timing.map (·.duration))
    !(feasibleSets (ranges.headD (0, 0)) triples).isEmpty

/-- The admissible-window formula asserted by the specification for a
right-hand note, including the forced-position overrides. -/
def claimWindowRight (w : ℤ) : ℤ × ℤ :=
  if w = 24 then (24, 24)
  else if w = 51 then (46, 47)
  else if w = 52 then (47, 48)
  else (max 1 (w - 5), min 52 w)

/-- The admissible-window formula asserted by the specification for a
left-hand note, including the forced-position overrides. -/
def claimWindowLeft (w : ℤ) : ℤ × ℤ :=
  if w = 23 then (19, 19)
  else if w = 1 then (1, 1)
  else if w = 2 then (2, 2)
  else (max 1 (w - 4), min 52 w)

/-- The white-key offset-to-finger table stated by the claim (the one the
claim says rule-less black keys share): right hand `0..5 ↦ 1,2,3,4,5,5`,
left hand `0..4 ↦ 5,4,3,2,1`. -/
def claimOffsetFinger (hand : Hand) (k : ℤ) : ℤ :=
  match hand with
  | .right =>
    if k = 0 then 1 else if k = 1 then 2 else if k = 2 then 3
    else if k = 3 then 4 else if k = 4 then 5 else if k = 5 then 5 else 1
  | _ =>
    if k = 0 then 5 else if k = 1 then 4 else if k = 2 then 3
    else if k = 3 then 2 else if k = 4 then 1 else 5

/-- The finger table the code actually applies to a black key without a
fixed rule (the amended claim): on the right hand the table is reversed
relative to the white-key one, with the extended-pinky flag at offset 1;
on the left hand (and in `both` mode) it coincides with the left white-key
table. -/
def amendedRuleLessFinger (hand : Hand) (k : ℤ) : ℤ × Bool :=
  match hand with
  | .right =>
    if k = 0 then (5, false)
    else if k = 1 then (5, true)
    else if k = 2 then (4, false)
    else if k = 3 then (3, false)
    else if k = 4 then (2, false)
    else if k = 5 then (1, false)
    else (5, false)
  | _ =>
    if k = 0 then (5, false)
    else if k = 1 then (4, false)
    else if k = 2 then (3, false)
    else if k = 3 then (2, false)
    else if k = 4 then (1, false)
    else (5, false)

/-- A left fold whose step either keeps the state or replaces it by a value
derived from the current element ends in the initial state or in a value
derived from some list element. -/
theorem foldl_choice {α β : Type _} (f : β → α → β) (C : α → β → Prop)
    (H : ∀ s x, f s x = s ∨ C x (f s x)) :
    ∀ (L : List α) (init : β), L.foldl f init = init ∨ ∃ x ∈ L, C x (L.foldl f init) := by
  intro L
  induction L with
  | nil => intro init; exact Or.inl rfl
  | cons x t ih =>
    intro init
    simp only [List.foldl_cons]
    rcases H init x with h | h
    · rw [h]
      rcases ih init with h2 | ⟨y, hy, hC⟩
      · exact Or.inl h2
      · exact Or.inr ⟨y, List.mem_cons_of_mem _ hy, hC⟩
    · rcases ih (f init x) with h2 | ⟨y, hy, hC⟩
      · rw [h2]; exact Or.inr ⟨x, List.mem_cons_self x t, h⟩
      · exact Or.inr ⟨y, List.mem_cons_of_mem _ hy, hC⟩

/-- Membership in `posList` is interval membership. -/
theorem mem_posList {r : ℤ × ℤ} {q : ℤ} : q ∈ posList r ↔ r.1 ≤ q ∧ q ≤ r.2 := by
  unfold posList
  simp only [List.mem_map, List.mem_range]
  constructor
  · rintro ⟨k, hk, rfl⟩
    omega
  · rintro ⟨h1, h2⟩
    exact ⟨(q - r.1).toNat, by omega, by omega⟩

/-- A positive cost comparison requires a finite left side. -/
theorem infLt_some {a b : Option ℚ} (h : infLt a b = true) : ∃ x, a = some x := by
  cases a with
  | none => simp [infLt] at h
  | some x => exact ⟨x, rfl⟩

/-- Backtracking with an accumulator appends it to the bare result. -/
theorem btAux_acc (rs : List (ℕ → Cell)) :
    ∀ (a : ℤ) (acc : List ℤ), btAux rs a acc = btAux rs a [] ++ acc := by
  induction rs with
  | nil => intro a acc; rfl
  | cons r rs ih =>
    intro a acc
    show btAux rs (pyRowGet r a).prev (a :: acc) = btAux rs (pyRowGet r a).prev [a] ++ acc
    rw [ih _ (a :: acc), ih _ [a]]
    simp

/-- Backtracking yields one position per processed row plus the start. -/
theorem btAux_length (rs : List (ℕ → Cell)) :
    ∀ (a : ℤ), (btAux rs a []).length = rs.length + 1 := by
  induction rs with
  | nil => intro a; rfl
  | cons r rs ih =>
    intro a
    show (btAux rs (pyRowGet r a).prev [a]).length = _
    rw [btAux_acc, List.length_append, ih]
    simp

/-- The backtracked list ends in its starting position. -/
theorem btAux_last (rs : List (ℕ → Cell)) :
    ∀ (a : ℤ), (btAux rs a []).getLastD 0 = a := by
  induction rs with
  | nil => intro a; rfl
  | cons r rs ih =>
    intro a
    show (btAux rs (pyRowGet r a).prev [a]).getLastD 0 = a
    rw [btAux_acc]
    simp [List.getLastD_concat]

/-- The backtracked list is never empty. -/
theorem btAux_ne_nil (rs : List (ℕ → Cell)) (a : ℤ) : btAux rs a [] ≠ [] := by
  intro h
  have := btAux_length rs a
  rw [h] at this
  simp at this

/-- The rows produced by `dpRowsAux` are one per triple. -/
theorem dpRowsAux_length (mp dpen : ℚ) :
    ∀ (rest : List (((ℤ × ℤ) × (ℤ × ℤ)) × ℚ)) (prev : ℕ → Cell),
      (dpRowsAux mp dpen prev rest).length = rest.length := by
  intro rest
  induction rest with
  | nil => intro prev; rfl
  | cons t rest ih =>
    intro prev
    obtain ⟨⟨pr, cr⟩, dur⟩ := t
    show (dpStepRow mp dpen dur pr cr prev :: dpRowsAux mp dpen _ rest).length = _
    simp [ih]

/-- Appending a final position adds one move when it differs from the last
position. -/
theorem movesFrom_concat (p : ℤ) :
    ∀ (l : List ℤ) (prev : ℤ),
      movesFrom prev (l ++ [p]) =
        movesFrom prev l + (if p ≠ l.getLastD prev then 1 else 0) := by
  intro l
  induction l with
  | nil => intro prev; simp [movesFrom]
  | cons a t ih =>
    intro prev
    show (if a ≠ prev then 1 else 0) + movesFrom a (t ++ [p]) = _
    rw [ih a]
    simp only [movesFrom, List.getLastD_cons]
    omega

/-- Appending a final position to a path adds one move when it differs
from the last position. -/
theorem pathMoves_concat (as : List ℤ) (p : ℤ) (h : as ≠ []) :
    pathMoves (as ++ [p]) = pathMoves as + (if p ≠ as.getLastD 0 then 1 else 0) := by
  obtain ⟨a, rest, rfl⟩ : ∃ a rest, as = a :: rest := by
    cases as with
    | nil => exact absurd rfl h
    | cons a rest => exact ⟨a, rest, rfl⟩
  show pathMoves (a :: (rest ++ [p])) = _
  simp only [pathMoves, List.getLastD_cons]
  exact movesFrom_concat p rest a

/-- Appending a final position adds the cost of one transition, charged at
the cumulative move count. -/
theorem cumulFrom_concat (mp dpen : ℚ) (p : ℤ) :
    ∀ (l : List ℤ) (prev : ℤ) (m : ℕ),
      cumulFrom mp dpen prev m (l ++ [p]) =
        cumulFrom mp dpen prev m l +
          (((|p - l.getLastD prev| : ℤ) : ℚ) +
            (if 0 < |p - l.getLastD prev| then
              dpen * ((|p - l.getLastD prev| : ℤ) : ℚ) ^ 2 else 0) +
            mp * ((m + movesFrom prev l + if p ≠ l.getLastD prev then 1 else 0 : ℕ) : ℚ)) := by
  intro l
  induction l with
  | nil =>
    intro prev m
    show cumulFrom mp dpen prev m [p] = _
    simp only [cumulFrom, List.getLastD_nil, movesFrom]
    push_cast
    ring
  | cons a t ih =>
    intro prev m
    show cumulFrom mp dpen prev m (a :: (t ++ [p])) = _
    simp only [cumulFrom, List.getLastD_cons]
    rw [ih a]
    have hmv : movesFrom prev (a :: t) = (if a ≠ prev then 1 else 0) + movesFrom a t := rfl
    rw [hmv]
    have : m + (if a ≠ prev then 1 else 0) + movesFrom a t =
        m + ((if a ≠ prev then 1 else 0) + movesFrom a t) := by omega
    rw [this]
    ring

/-- Appending a final position to a path adds the cost of one transition,
charged at the cumulative move count. -/
theorem cumulPathCost_concat (mp dpen : ℚ) (as : List ℤ) (p : ℤ) (h : as ≠ []) :
    cumulPathCost mp dpen (as ++ [p]) =
      cumulPathCost mp dpen as +
        (((|p - as.getLastD 0| : ℤ) : ℚ) +
          (if 0 < |p - as.getLastD 0| then
            dpen * ((|p - as.getLastD 0| : ℤ) : ℚ) ^ 2 else 0) +
          mp * ((pathMoves as + if p ≠ as.getLastD 0 then 1 else 0 : ℕ) : ℚ)) := by
  obtain ⟨a, rest, rfl⟩ : ∃ a rest, as = a :: rest := by
    cases as with
    | nil => exact absurd rfl h
    | cons a rest => exact ⟨a, rest, rfl⟩
  show cumulPathCost mp dpen (a :: (rest ++ [p])) = _
  simp only [cumulPathCost, List.getLastD_cons, pathMoves]
  rw [cumulFrom_concat mp dpen p rest a 0]
  norm_num

/-- Extending an admissible step list by one allowed transition. -/
theorem admSteps_concat (pr cr : ℤ × ℤ) (dur : ℚ) (p : ℤ) :
    ∀ (ts : List (((ℤ × ℤ) × (ℤ × ℤ)) × ℚ)) (l : List ℤ) (prev : ℤ),
      AdmSteps prev ts l → inWin cr p → (p ≠ l.getLastD prev → ¬ dur ≤ 1 / 4) →
      AdmSteps prev (ts ++ [((pr, cr), dur)]) (l ++ [p]) := by
  intro ts
  induction ts with
  | nil =>
    intro l prev h hw hg
    cases l with
    | nil => exact ⟨hw, hg, trivial⟩
    | cons a t => exact absurd h (by simp [AdmSteps])
  | cons t ts ih =>
    intro l prev h hw hg
    cases l with
    | nil => exact absurd h (by simp [AdmSteps])
    | cons a rest =>
      obtain ⟨h1, h2, h3⟩ := h
      refine ⟨h1, h2, ih rest a h3 hw ?_⟩
      rw [List.getLastD_cons] at hg
      exact hg

/-- Extending an admissible assignment by one allowed transition. -/
theorem admissible_concat (r0 : ℤ × ℤ) (pr cr : ℤ × ℤ) (dur : ℚ) (p : ℤ)
    (ts : List (((ℤ × ℤ) × (ℤ × ℤ)) × ℚ)) (as : List ℤ)
    (h : Admissible r0 ts as) (hw : inWin cr p)
    (hg : p ≠ as.getLastD 0 → ¬ dur ≤ 1 / 4) :
    Admissible r0 (ts ++ [((pr, cr), dur)]) (as ++ [p]) := by
  cases as with
  | nil => exact absurd h (by simp [Admissible])
  | cons a rest =>
    obtain ⟨h0, hsteps⟩ := h
    refine ⟨h0, admSteps_concat pr cr dur p ts rest a hsteps hw ?_⟩
    rw [List.getLastD_cons] at hg
    exact hg

/-- A slot produced by accepting predecessor `q`. -/
def candAccept (mp dpen durPrev : ℚ) (prevRow : ℕ → Cell) (p q : ℤ) (s : Cell) : Prop :=
  ∃ cc, (prevRow q.toNat).cost = some cc ∧ ¬(0 < |p - q| ∧ durPrev ≤ 1 / 4) ∧
    s = stepCand mp dpen prevRow p q cc

/-- Each inner-loop iteration keeps the state or accepts the candidate. -/
theorem innerStep_choice (mp dpen durPrev : ℚ) (prevRow : ℕ → Cell) (p : ℤ) :
    ∀ (st : Cell) (q : ℤ),
      innerStep mp dpen durPrev prevRow p st q = st ∨
      candAccept mp dpen durPrev prevRow p q (innerStep mp dpen durPrev prevRow p st q) := by
  intro st q
  unfold innerStep
  cases h : (prevRow q.toNat).cost with
  | none => exact Or.inl rfl
  | some cc =>
    dsimp only
    rcases Decidable.em (0 < |p - q| ∧ durPrev ≤ 1 / 4) with hg | hg
    · rw [if_pos hg]; exact Or.inl rfl
    · rw [if_neg hg]
      rcases Decidable.em
          (infLt (some (cc + transCostQ mp dpen (prevRow q.toNat).moves q p)) st.cost = true)
        with hlt | hlt
      · rw [if_pos hlt]; exact Or.inr ⟨cc, h, hg, rfl⟩
      · rw [if_neg hlt]; exact Or.inl rfl

/-- The inner minimisation returns the initial slot or a slot obtained by
accepting some predecessor of the previous note's window. -/
theorem innerMin_spec (mp dpen durPrev : ℚ) (pr : ℤ × ℤ) (prevRow : ℕ → Cell) (p : ℤ) :
    innerMin mp dpen durPrev pr prevRow p = initCell ∨
    ∃ q ∈ posList pr,
      candAccept mp dpen durPrev prevRow p q (innerMin mp dpen durPrev pr prevRow p) :=
  foldl_choice _ _ (innerStep_choice mp dpen durPrev prevRow p) (posList pr) initCell

/-- The final scan returns the initial state or the slot of some position
of the last window, which then has a finite cost. -/
theorem selectBest_spec (row : ℕ → Cell) (r : ℤ × ℤ) :
    selectBest row r = (none, -1, 0) ∨
    ∃ q ∈ posList r,
      selectBest row r = ((row q.toNat).cost, q, (row q.toNat).moves) ∧
        ∃ cc, (row q.toNat).cost = some cc := by
  unfold selectBest
  refine foldl_choice _
    (fun q s => s = ((row q.toNat).cost, q, (row q.toNat).moves) ∧
      ∃ cc, (row q.toNat).cost = some cc) ?_ (posList r) (none, -1, 0)
  intro st q
  rcases Decidable.em (infLt (row q.toNat).cost st.1 = true) with hlt | hlt
  · rw [if_pos hlt]; exact Or.inr ⟨rfl, infLt_some hlt⟩
  · rw [if_neg hlt]; exact Or.inl rfl

/-- Reading a row at a natural index through the Python indexing helper. -/
theorem pyRowGet_natCast (row : ℕ → Cell) (j : ℕ) : pyRowGet row (j : ℤ) = row j := by
  unfold pyRowGet
  rw [if_pos (Int.natCast_nonneg j)]
  simp

/-- The invariant carried along the DP rows: every slot of finite cost
backtracks (through the rows built so far) to an admissible assignment
whose cumulative cost and move count are the slot's entries and whose
positions all lie on the keyboard. -/
def RowInv (mp dpen : ℚ) (r0 : ℤ × ℤ) (ts : List (((ℤ × ℤ) × (ℤ × ℤ)) × ℚ))
    (rows1 : List (ℕ → Cell)) (row : ℕ → Cell) : Prop :=
  ∀ (j : ℕ) (c : ℚ), (row j).cost = some c →
    Admissible r0 ts (btAux rows1.reverse (j : ℤ) []) ∧
    cumulPathCost mp dpen (btAux rows1.reverse (j : ℤ) []) = c ∧
    pathMoves (btAux rows1.reverse (j : ℤ) []) = (row j).moves ∧
    ∀ a ∈ btAux rows1.reverse (j : ℤ) [], 1 ≤ a ∧ a ≤ 52

/-- Row 0 satisfies the invariant: a finite slot is a window position with
cost 0 and no moves. -/
theorem row0_inv (mp dpen : ℚ) (r0 : ℤ × ℤ) (h0 : 1 ≤ r0.1 ∧ r0.2 ≤ 52) :
    RowInv mp dpen r0 [] [] (row0fn r0) := by
  intro j c hc
  unfold row0fn at hc
  rcases Decidable.em (r0.1 ≤ (j : ℤ) ∧ (j : ℤ) ≤ r0.2) with hw | hw
  · rw [if_pos hw] at hc
    have hc0 : c = 0 := (Option.some_inj.mp hc).symm
    refine ⟨?_, ?_, ?_, ?_⟩
    · show Admissible r0 [] [(j : ℤ)]
      exact ⟨hw, trivial⟩
    · show cumulPathCost mp dpen [(j : ℤ)] = c
      rw [hc0]; rfl
    · show pathMoves [(j : ℤ)] = (row0fn r0 j).moves
      unfold row0fn
      rw [if_pos hw]
      rfl
    · intro a ha
      have : a = (j : ℤ) := List.mem_singleton.mp ha
      subst this
      omega
  · rw [if_neg hw] at hc
    exact absurd hc (by simp [initCell])

/-- Filling one DP row preserves the invariant: a finite slot of the new
row extends the predecessor's admissible backtrack by one allowed
transition, accumulating its cost and move count. -/
theorem dpStep_inv (mp dpen : ℚ) (r0 : ℤ × ℤ)
    (ts : List (((ℤ × ℤ) × (ℤ × ℤ)) × ℚ)) (rows1 : List (ℕ → Cell))
    (prev : ℕ → Cell) (pr cr : ℤ × ℤ) (dur : ℚ)
    (hq : 1 ≤ pr.1) (hb : 1 ≤ cr.1 ∧ cr.2 ≤ 52)
    (hprev : RowInv mp dpen r0 ts rows1 prev) :
    RowInv mp dpen r0 (ts ++ [((pr, cr), dur)])
      (rows1 ++ [dpStepRow mp dpen dur pr cr prev])
      (dpStepRow mp dpen dur pr cr prev) := by
  intro j c hc
  have hwin : cr.1 ≤ (j : ℤ) ∧ (j : ℤ) ≤ cr.2 := by
    by_contra hcon
    unfold dpStepRow at hc
    rw [if_neg hcon] at hc
    exact absurd hc (by simp [initCell])
  have hrow : dpStepRow mp dpen dur pr cr prev j = innerMin mp dpen dur pr prev (j : ℤ) := by
    unfold dpStepRow
    rw [if_pos hwin]
  rcases innerMin_spec mp dpen dur pr prev (j : ℤ) with hinit | ⟨q, hqmem, hacc⟩
  · rw [hrow, hinit] at hc
    exact absurd hc (by simp [initCell])
  unfold candAccept at hacc
  obtain ⟨cc, hqcost, hguard, heq⟩ := hacc
  have hcell : dpStepRow mp dpen dur pr cr prev j = stepCand mp dpen prev (j : ℤ) q cc := by
    rw [hrow, heq]
  have hqpos : 0 ≤ q := by
    have := (mem_posList.mp hqmem).1
    omega
  have hcval : c = cc + transCostQ mp dpen (prev q.toNat).moves q (j : ℤ) := by
    rw [hcell] at hc
    unfold stepCand at hc
    exact (Option.some_inj.mp hc).symm
  have hq' : ((q.toNat : ℕ) : ℤ) = q := Int.toNat_of_nonneg hqpos
  obtain ⟨Hadm, Hcost, Hmoves, Hbnd⟩ := hprev q.toNat cc hqcost
  rw [hq'] at Hadm Hcost Hmoves Hbnd
  have hrev : (rows1 ++ [dpStepRow mp dpen dur pr cr prev]).reverse
      = dpStepRow mp dpen dur pr cr prev :: rows1.reverse := by simp
  have hPP : btAux (dpStepRow mp dpen dur pr cr prev :: rows1.reverse) (j : ℤ) []
      = btAux rows1.reverse q [] ++ [(j : ℤ)] := by
    show btAux rows1.reverse (pyRowGet (dpStepRow mp dpen dur pr cr prev) (j : ℤ)).prev
        [(j : ℤ)] = _
    rw [pyRowGet_natCast, hcell]
    show btAux rows1.reverse q [(j : ℤ)] = _
    rw [btAux_acc]
  rw [hrev, hPP]
  have hlastP : (btAux rows1.reverse q []).getLastD 0 = q := btAux_last rows1.reverse q
  have hneP : btAux rows1.reverse q [] ≠ [] := btAux_ne_nil rows1.reverse q
  have hguard' : (j : ℤ) ≠ (btAux rows1.reverse q []).getLastD 0 → ¬ dur ≤ 1 / 4 := by
    intro hne hle
    rw [hlastP] at hne
    exact hguard ⟨abs_pos.mpr (sub_ne_zero.mpr hne), hle⟩
  refine ⟨?_, ?_, ?_, ?_⟩
  · exact admissible_concat r0 pr cr dur (j : ℤ) ts (btAux rows1.reverse q []) Hadm
      ⟨hwin.1, hwin.2⟩ hguard'
  · rw [cumulPathCost_concat mp dpen _ _ hneP, hlastP, Hcost, Hmoves, hcval]
    rfl
  · rw [pathMoves_concat _ _ hneP, hlastP, Hmoves, hcell]
    rfl
  · intro a ha
    rcases List.mem_append.mp ha with haP | haj
    · exact Hbnd a haP
    · have : a = (j : ℤ) := List.mem_singleton.mp haj
      subst this
      omega

/-- The last element (with default) of a nonempty list is a member. -/
theorem getLastD_mem {α : Type _} (l : List α) (d : α) (h : l ≠ []) :
    l.getLastD d ∈ l := by
  induction l generalizing d with
  | nil => exact absurd rfl h
  | cons a t ih =>
    rw [List.getLastD_cons]
    cases t with
    | nil => exact List.mem_singleton.mpr rfl
    | cons b u =>
      exact List.mem_cons_of_mem a (ih a (List.cons_ne_nil b u))

/-- The head (with default) of a nonempty list is a member. -/
theorem headD_mem {α : Type _} (l : List α) (d : α) (h : l ≠ []) : l.headD d ∈ l := by
  cases l with
  | nil => exact absurd rfl h
  | cons a t => exact List.mem_cons_self a t

/-- Every triple of the DP transition data carries windows of the input
list. -/
theorem dpTriples_bounds (ranges : List (ℤ × ℤ)) (timing : List Timing)
    (hb : ∀ r ∈ ranges, 1 ≤ r.1 ∧ r.2 ≤ 52) :
    ∀ t ∈ dpTriples ranges timing, 1 ≤ t.1.1.1 ∧ 1 ≤ t.1.2.1 ∧ t.1.2.2 ≤ 52 := by
  intro t ht
  obtain ⟨⟨pr, cr⟩, dur⟩ := t
  unfold dpTriples at ht
  have h1 := (List.of_mem_zip ht).1
  have h2 := List.of_mem_zip h1
  have hpr : pr ∈ ranges := h2.1
  have hcr : cr ∈ ranges := List.mem_of_mem_tail h2.2
  exact ⟨(hb pr hpr).1, (hb cr hcr).1, (hb cr hcr).2⟩

/-- Iterating the row fill preserves the invariant down to the last row. -/
theorem dpRowsAux_inv (mp dpen : ℚ) (r0 : ℤ × ℤ) :
    ∀ (rest : List (((ℤ × ℤ) × (ℤ × ℤ)) × ℚ)),
      (∀ t ∈ rest, 1 ≤ t.1.1.1 ∧ 1 ≤ t.1.2.1 ∧ t.1.2.2 ≤ 52) →
      ∀ (ts0 : List (((ℤ × ℤ) × (ℤ × ℤ)) × ℚ)) (rows1 : List (ℕ → Cell))
        (prev : ℕ → Cell),
        RowInv mp dpen r0 ts0 rows1 prev →
        RowInv mp dpen r0 (ts0 ++ rest)
          (rows1 ++ dpRowsAux mp dpen prev rest)
          ((prev :: dpRowsAux mp dpen prev rest).getLastD prev) := by
  intro rest
  induction rest with
  | nil =>
    intro _ ts0 rows1 prev hprev
    simpa [dpRowsAux] using hprev
  | cons t rest ih =>
    intro hbnd ts0 rows1 prev hprev
    obtain ⟨⟨pr, cr⟩, dur⟩ := t
    have hmem := hbnd _ (List.mem_cons_self _ _)
    have hstep := dpStep_inv mp dpen r0 ts0 rows1 prev pr cr dur hmem.1
      ⟨hmem.2.1, hmem.2.2⟩ hprev
    have hrec := ih (fun t ht => hbnd t (List.mem_cons_of_mem _ ht))
      (ts0 ++ [((pr, cr), dur)]) (rows1 ++ [dpStepRow mp dpen dur pr cr prev])
      (dpStepRow mp dpen dur pr cr prev) hstep
    show RowInv mp dpen r0 (ts0 ++ ((pr, cr), dur) :: rest)
      (rows1 ++ (dpStepRow mp dpen dur pr cr prev ::
        dpRowsAux mp dpen (dpStepRow mp dpen dur pr cr prev) rest))
      ((prev :: dpStepRow mp dpen dur pr cr prev ::
        dpRowsAux mp dpen (dpStepRow mp dpen dur pr cr prev) rest).getLastD prev)
    rw [List.append_cons ts0 _ rest, List.append_cons rows1 _ _, List.getLastD_cons,
      List.getLastD_cons]
    rw [List.getLastD_cons] at hrec
    exact hrec

/-- The invariant holds at the last DP row. -/
theorem dpLastRow_inv (mp dpen : ℚ) (ranges : List (ℤ × ℤ)) (timing : List Timing)
    (hb : ∀ r ∈ ranges, 1 ≤ r.1 ∧ r.2 ≤ 52) (hne : ranges ≠ []) :
    RowInv mp dpen (ranges.headD (0, 0)) (dpTriples ranges timing)
      (dpTailRows mp dpen ranges timing) (dpLastRow mp dpen ranges timing) := by
  have h0 : 1 ≤ (ranges.headD (0, 0)).1 ∧ (ranges.headD (0, 0)).2 ≤ 52 :=
    hb _ (headD_mem ranges (0, 0) hne)
  have := dpRowsAux_inv mp dpen (ranges.headD (0, 0)) (dpTriples ranges timing)
    (dpTriples_bounds ranges timing hb) [] []
    (row0fn (ranges.headD (0, 0)))
    (row0_inv mp dpen (ranges.headD (0, 0)) h0)
  simpa [dpTailRows, dpLastRow] using this

/-- Soundness of the dynamic programme: a finite returned cost is the
cumulative cost of the backtracked position sequence, which is an
admissible assignment staying on the keyboard, and the returned move count
is its number of moves. -/
theorem runDP_sound (mp dpen : ℚ) (ranges : List (ℤ × ℤ)) (timing : List Timing)
    (hb : ∀ r ∈ ranges, 1 ≤ r.1 ∧ r.2 ≤ 52) (hne : ranges ≠ []) (c : ℚ)
    (hc : (runDP mp dpen ranges timing).2.1 = some c) :
    Admissible (ranges.headD (0, 0)) (dpTriples ranges timing)
        (runDP mp dpen ranges timing).1 ∧
      cumulPathCost mp dpen (runDP mp dpen ranges timing).1 = c ∧
      pathMoves (runDP mp dpen ranges timing).1 = (runDP mp dpen ranges timing).2.2 ∧
      ∀ a ∈ (runDP mp dpen ranges timing).1, 1 ≤ a ∧ a ≤ 52 := by
  have hc' : (dpBest mp dpen ranges timing).1 = some c := hc
  rcases selectBest_spec (dpLastRow mp dpen ranges timing) (ranges.getLastD (0, 0))
    with hinit | ⟨q, hqmem, heq, cc, hqcost⟩
  · rw [show dpBest mp dpen ranges timing =
        selectBest (dpLastRow mp dpen ranges timing) (ranges.getLastD (0, 0)) from rfl,
      hinit] at hc'
    exact absurd hc' (by simp)
  · have hbest : dpBest mp dpen ranges timing =
        ((dpLastRow mp dpen ranges timing q.toNat).cost, q,
          (dpLastRow mp dpen ranges timing q.toNat).moves) := heq
    have hqpos : 0 ≤ q := by
      have h1 := (mem_posList.mp hqmem).1
      have h2 := (hb _ (getLastD_mem ranges (0, 0) hne)).1
      omega
    have hq' : ((q.toNat : ℕ) : ℤ) = q := Int.toNat_of_nonneg hqpos
    have hcost : (dpLastRow mp dpen ranges timing q.toNat).cost = some c := by
      rw [hbest] at hc'
      exact hc'
    obtain ⟨Hadm, Hcost, Hmoves, Hbnd⟩ :=
      dpLastRow_inv mp dpen ranges timing hb hne q.toNat c hcost
    rw [hq'] at Hadm Hcost Hmoves Hbnd
    have hpos : (runDP mp dpen ranges timing).1 =
        btAux (dpTailRows mp dpen ranges timing).reverse q [] := by
      show btAux (dpTailRows mp dpen ranges timing).reverse
        (dpBest mp dpen ranges timing).2.1 [] = _
      rw [hbest]
    have hmoves2 : (runDP mp dpen ranges timing).2.2 =
        (dpLastRow mp dpen ranges timing q.toNat).moves := by
      show (dpBest mp dpen ranges timing).2.2 = _
      rw [hbest]
    rw [hpos, hmoves2]
    exact ⟨Hadm, Hcost, Hmoves, Hbnd⟩

/-- An infinite returned cost makes the backtracking start at the sentinel
`-1`, which is then the last returned arm position. -/
theorem runDP_none (mp dpen : ℚ) (ranges : List (ℤ × ℤ)) (timing : List Timing)
    (hc : (runDP mp dpen ranges timing).2.1 = none) :
    (runDP mp dpen ranges timing).1.getLastD 0 = -1 := by
  have hc' : (dpBest mp dpen ranges timing).1 = none := hc
  rcases selectBest_spec (dpLastRow mp dpen ranges timing) (ranges.getLastD (0, 0))
    with hinit | ⟨q, hqmem, heq, cc, hqcost⟩
  · have hbest : dpBest mp dpen ranges timing = (none, -1, 0) := hinit
    have : (runDP mp dpen ranges timing).1 =
        btAux (dpTailRows mp dpen ranges timing).reverse (-1) [] := by
      show btAux (dpTailRows mp dpen ranges timing).reverse
        (dpBest mp dpen ranges timing).2.1 [] = _
      rw [hbest]
    rw [this, btAux_last]
  · have hbest : dpBest mp dpen ranges timing =
        ((dpLastRow mp dpen ranges timing q.toNat).cost, q,
          (dpLastRow mp dpen ranges timing q.toNat).moves) := heq
    rw [hbest] at hc'
    rw [hqcost] at hc'
    exact absurd hc' (by simp)

/-- The end of an admissible continuation is forward-reachable. -/
theorem admSteps_reach :
    ∀ (ts : List (((ℤ × ℤ) × (ℤ × ℤ)) × ℚ)) (l : List ℤ) (prev : ℤ) (S : List ℤ),
      AdmSteps prev ts l → prev ∈ S →
      l.getLastD prev ∈ ts.foldl reachStep S := by
  intro ts
  induction ts with
  | nil =>
    intro l prev S h hS
    cases l with
    | nil => exact hS
    | cons a t => exact absurd h (by simp [AdmSteps])
  | cons t ts ih =>
    intro l prev S h hS
    cases l with
    | nil => exact absurd h (by simp [AdmSteps])
    | cons a rest =>
      obtain ⟨hw, hg, hrest⟩ := h
      rw [List.getLastD_cons]
      refine ih rest a (reachStep S t) hrest ?_
      unfold reachStep
      rw [List.mem_filter]
      refine ⟨mem_posList.mpr hw, ?_⟩
      rw [List.any_eq_true]
      refine ⟨prev, hS, ?_⟩
      unfold transAllowed
      rcases Decidable.em (a = prev) with he | he
      · simp [he]
      · have h14 : 4⁻¹ < t.2 := by
          have := hg he
          rw [show (1 : ℚ) / 4 = 4⁻¹ by norm_num] at this
          exact lt_of_not_le this
        simp [he, h14]

/-- An admissible assignment witnesses feasibility. -/
theorem admissible_feasible (r0 : ℤ × ℤ) (ts : List (((ℤ × ℤ) × (ℤ × ℤ)) × ℚ))
    (as : List ℤ) (h : Admissible r0 ts as) : feasibleSets r0 ts ≠ [] := by
  cases as with
  | nil => exact absurd h (by simp [Admissible])
  | cons a rest =>
    obtain ⟨h0, hsteps⟩ := h
    have := admSteps_reach ts rest a (posList r0) hsteps (mem_posList.mpr h0)
    exact List.ne_nil_of_mem this

/-- Every window computed by `rangeForNote` lies on the keyboard. -/
theorem rangeForNote_bounds (hand : Hand) (w : ℤ) :
    1 ≤ (rangeForNote hand w).1 ∧ (rangeForNote hand w).2 ≤ 52 := by
  cases hand with
  | left =>
    dsimp only [rangeForNote]
    split_ifs <;>
      first
        | exact ⟨le_max_left 1 _, min_le_left 52 _⟩
        | exact ⟨by norm_num, by norm_num⟩
  | right =>
    dsimp only [rangeForNote]
    split_ifs <;>
      first
        | exact ⟨le_max_left 1 _, min_le_left 52 _⟩
        | exact ⟨by norm_num, by norm_num⟩
  | both =>
    dsimp only [rangeForNote]
    exact ⟨le_max_left 1 _, min_le_left 52 _⟩

/-- The effective timing list has one entry per valid note. -/
theorem effTiming_length (valid : List VNote) (noteTiming : List Timing) :
    (effTiming valid noteTiming).length = valid.length := by
  unfold effTiming
  split_ifs <;> simp

/-- The backtracked position list has one entry per note. -/
theorem runDP_length (mp dpen : ℚ) (ranges : List (ℤ × ℤ)) (timing : List Timing)
    (hlen : timing.length = ranges.length) (hne : ranges ≠ []) :
    (runDP mp dpen ranges timing).1.length = ranges.length := by
  show (btAux (dpTailRows mp dpen ranges timing).reverse
    (dpBest mp dpen ranges timing).2.1 []).length = _
  rw [btAux_length, List.length_reverse]
  unfold dpTailRows
  rw [dpRowsAux_length]
  unfold dpTriples
  rw [List.length_zip, List.length_zip, List.length_map, List.length_tail, hlen]
  have : ranges.length ≠ 0 := by
    intro h0
    exact hne (List.length_eq_zero.mp h0)
  rw [min_def, min_def]
  split_ifs <;> omega

/-- Arm positions of the built output are the given position list. -/
theorem buildOutput_map_arm (hand : Hand) :
    ∀ (vs : List VNote) (ts : List Timing) (as : List ℤ),
      vs.length = ts.length → ts.length = as.length →
      (buildOutput hand vs ts as).map (·.arm_position) = as := by
  intro vs
  induction vs with
  | nil =>
    intro ts as h1 h2
    cases as with
    | nil => rfl
    | cons a as' =>
      exfalso
      simp only [List.length_nil, List.length_cons] at h1 h2
      omega
  | cons v vs' ih =>
    intro ts as h1 h2
    cases ts with
    | nil => simp at h1
    | cons t ts' =>
      cases as with
      | nil => simp at h2
      | cons a as' =>
        show (mkPlanned hand v t a).arm_position :: _ = a :: as'
        rw [ih ts' as' (by simpa using h1) (by simpa using h2)]
        rfl

/-- Every output note comes from aligned entries of the three lists,
preserving any pointwise relation between a note and its position. -/
theorem buildOutput_mem_rel (hand : Hand) (R : VNote → ℤ → Prop) :
    ∀ (vs : List VNote) (ts : List Timing) (as : List ℤ),
      List.Forall₂ R vs as →
      ∀ p ∈ buildOutput hand vs ts as,
        ∃ v ∈ vs, ∃ t a, R v a ∧ p = mkPlanned hand v t a := by
  intro vs
  induction vs with
  | nil => intro ts as _ p hp; cases ts <;> cases as <;> simp [buildOutput] at hp
  | cons v vs' ih =>
    intro ts as hf p hp
    cases ts with
    | nil => simp [buildOutput] at hp
    | cons t ts' =>
      cases as with
      | nil => simp [buildOutput] at hp
      | cons a as' =>
        rcases List.forall₂_cons.mp hf with ⟨hR, hf'⟩
        rw [show buildOutput hand (v :: vs') (t :: ts') (a :: as')
            = mkPlanned hand v t a :: buildOutput hand vs' ts' as' from rfl] at hp
        rcases List.mem_cons.mp hp with hp | hp
        · exact ⟨v, List.mem_cons_self v vs', t, a, hR, hp⟩
        · obtain ⟨v', hv', t', a', hR', he'⟩ := ih ts' as' hf' p hp
          exact ⟨v', List.mem_cons_of_mem v hv', t', a', hR', he'⟩

/-- An admissible assignment over zipped windows relates each window to
its position. -/
theorem adm_zip_forall2 :
    ∀ (rs : List (ℤ × ℤ)) (prevR : ℤ × ℤ) (ds : List ℚ) (l : List ℤ) (prev : ℤ),
      rs.length ≤ ds.length →
      AdmSteps prev (((prevR :: rs).zip rs).zip ds) l →
      List.Forall₂ (fun r a => inWin r a) rs l := by
  intro rs
  induction rs with
  | nil =>
    intro prevR ds l prev _ h
    cases l with
    | nil => exact List.Forall₂.nil
    | cons a t => exact absurd h (by simp [AdmSteps])
  | cons r1 rest ih =>
    intro prevR ds l prev hlen h
    cases ds with
    | nil => simp at hlen
    | cons d ds' =>
      have hzip : (((prevR :: r1 :: rest).zip (r1 :: rest)).zip (d :: ds'))
          = ((prevR, r1), d) :: (((r1 :: rest).zip rest).zip ds') := rfl
      rw [hzip] at h
      cases l with
      | nil => exact absurd h (by simp [AdmSteps])
      | cons a l' =>
        obtain ⟨hw, _, hrest⟩ := h
        exact List.Forall₂.cons hw (ih r1 ds' l' a (by simpa using hlen) hrest)

/-- An admissible assignment puts each note's position in its window. -/
theorem admissible_forall2 (ranges : List (ℤ × ℤ)) (timing : List Timing)
    (as : List ℤ) (hne : ranges ≠ []) (hlen : ranges.length ≤ timing.length + 1)
    (h : Admissible (ranges.headD (0, 0)) (dpTriples ranges timing) as) :
    List.Forall₂ (fun r a => inWin r a) ranges as := by
  cases ranges with
  | nil => exact absurd rfl hne
  | cons r0 rtail =>
    cases as with
    | nil => exact absurd h (by simp [Admissible])
    | cons a rest =>
      obtain ⟨h0, hsteps⟩ := h
      refine List.Forall₂.cons h0 ?_
      unfold dpTriples at hsteps
      rw [List.tail_cons] at hsteps
      refine adm_zip_forall2 rtail r0 (timing.map (·.duration)) rest a ?_ hsteps
      rw [List.length_map]
      simpa using hlen

/-- Every valid note passed the hand's hardware-range check. -/
theorem filterValid_handRange (notesList : List (List Char)) (hand : Hand) (v : VNote)
    (hv : v ∈ filterValid notesList hand) : handRangeOK hand v.w = true := by
  unfold filterValid at hv
  rcases List.mem_filterMap.mp hv with ⟨p, _, he⟩
  dsimp only at he
  split_ifs at he with h1 h2
  have := Option.some_inj.mp he
  rw [← this]
  exact h2

/-- On the right hand, window membership bounds the finger offset by 0..5. -/
theorem inWin_offset_right (w a : ℤ) (hok : handRangeOK .right w = true)
    (hwin : inWin (rangeForNote .right w) a) : 0 ≤ w - a ∧ w - a ≤ 5 := by
  have hw : 24 ≤ w ∧ w ≤ 52 := by
    unfold handRangeOK at hok
    simpa using hok
  dsimp only [rangeForNote] at hwin
  unfold inWin at hwin
  split_ifs at hwin <;> obtain ⟨ha1, ha2⟩ := hwin
  · omega
  · omega
  · omega
  · rw [max_le_iff] at ha1
    rw [le_min_iff] at ha2
    omega

/-- On the left hand, window membership bounds the finger offset by 0..4. -/
theorem inWin_offset_left (w a : ℤ) (hok : handRangeOK .left w = true)
    (hwin : inWin (rangeForNote .left w) a) : 0 ≤ w - a ∧ w - a ≤ 4 := by
  have hw : 1 ≤ w ∧ w ≤ 23 := by
    unfold handRangeOK at hok
    simpa using hok
  dsimp only [rangeForNote] at hwin
  unfold inWin at hwin
  split_ifs at hwin <;> obtain ⟨ha1, ha2⟩ := hwin
  · omega
  · omega
  · omega
  · rw [max_le_iff] at ha1
    rw [le_min_iff] at ha2
    omega

/-- The planner on an input with no valid note. -/
theorem find_arm_empty (mp dpen : ℚ) (notesList : List (List Char))
    (noteTiming : List Timing) (hand : Hand) (h : filterValid notesList hand = []) :
    find_arm_positions_optimized mp dpen notesList noteTiming hand = ⟨[], some 0, 0⟩ := by
  unfold find_arm_positions_optimized
  rw [h]

/-- The planner on an input with at least one valid note. -/
theorem find_arm_cons (mp dpen : ℚ) (notesList : List (List Char))
    (noteTiming : List Timing) (hand : Hand) (v : VNote) (vs : List VNote)
    (h : filterValid notesList hand = v :: vs) :
    find_arm_positions_optimized mp dpen notesList noteTiming hand =
      ⟨buildOutput hand (v :: vs) (effTiming (v :: vs) noteTiming)
          (runDP mp dpen ((v :: vs).map (fun x => rangeForNote hand x.w))
            (effTiming (v :: vs) noteTiming)).1,
        (runDP mp dpen ((v :: vs).map (fun x => rangeForNote hand x.w))
          (effTiming (v :: vs) noteTiming)).2.1,
        (runDP mp dpen ((v :: vs).map (fun x => rangeForNote hand x.w))
          (effTiming (v :: vs) noteTiming)).2.2⟩ := by
  unfold find_arm_positions_optimized
  rw [h]

/-- Two lists of equal length are trivially pointwise related. -/
theorem forall2_trivial {α β : Type _} :
    ∀ (l1 : List α) (l2 : List β), l1.length = l2.length →
      List.Forall₂ (fun _ _ => True) l1 l2 := by
  intro l1
  induction l1 with
  | nil =>
    intro l2 h
    cases l2 with
    | nil => exact List.Forall₂.nil
    | cons b t => simp at h
  | cons a t ih =>
    intro l2 h
    cases l2 with
    | nil => simp at h
    | cons b t2 => exact List.Forall₂.cons trivial (ih t2 (by simpa using h))

/-- C8: for every MIDI semitone in 21..108, rendering the note name with
`get_note_name` and parsing it back with `note_to_midi_number` is the
identity. -/
theorem C8_round_trip :
    ∀ n ∈ Finset.Icc 21 108, note_to_midi_number (get_note_name n) = some (n : ℤ) := by
  decide

/-- Witness for C8 at middle C. -/
theorem C8_round_trip_witness :
    (60 : ℕ) ∈ Finset.Icc 21 108 ∧ note_to_midi_number (get_note_name 60) = some 60 :=
  ⟨by decide, C8_round_trip 60 (by decide)⟩

/-- C9 counterexample: with the queue at its capacity of 100, `put_message`
does not return with the queue unchanged (the claimed drop-newest); the
call blocks. -/
theorem C9_counterexample :
    put_message (List.replicate 100 (0 : ℕ)) 1 = PutOutcome.blocked ∧
      put_message (List.replicate 100 (0 : ℕ)) 1 ≠
        PutOutcome.enqueued (List.replicate 100 (0 : ℕ)) := by
  constructor <;> decide

/-- C9 amended: `put_message` appends while a slot is free and blocks on a
full queue; it never drops the new event and returns. -/
theorem C9_amended {α : Type} (q : List α) (m : α) :
    (q.length < 100 → put_message q m = PutOutcome.enqueued (q ++ [m])) ∧
      (100 ≤ q.length → put_message q m = PutOutcome.blocked) := by
  constructor <;> intro h <;> unfold put_message
  · rw [if_pos h]
  · rw [if_neg (by omega)]

/-- Witness for the amended C9 on a full queue. -/
theorem C9_amended_witness :
    100 ≤ (List.replicate 100 (0 : ℕ)).length ∧
      put_message (List.replicate 100 (0 : ℕ)) 1 = PutOutcome.blocked :=
  ⟨by decide, (C9_amended (List.replicate 100 (0 : ℕ)) 1).2 (by decide)⟩

set_option maxHeartbeats 2000000 in
unseal Rat.add Rat.mul Rat.inv in
/-- C1: on the two-note right-hand input C4, C8 (default timings), the
planner's second return value (reported as `move_distance`) is the
penalised DP cost 26478, while the sum of absolute arm-position
differences of the emitted trajectory is 23. -/
theorem C1_move_distance_is_cost :
    (find_arm_positions_optimized 5 50 [['C', '4'], ['C', '8']] [] .right).cost =
        some 26478 ∧
      sumAbsMoves ((find_arm_positions_optimized 5 50 [['C', '4'], ['C', '8']] []
          .right).output.map (·.arm_position)) = 23 ∧
      (26478 : ℚ) ≠ (23 : ℚ) := by
  refine ⟨?_, ?_, ?_⟩ <;> decide

set_option maxHeartbeats 2000000 in
unseal Rat.add Rat.mul Rat.inv in
/-- C2 counterexample: on the right-hand input C4, C8, C4 the returned
trajectory is 24, 47, 24 and the returned minimised cost is 52961, but
the specification's cost formula sums to 52956 on that same trajectory:
the move penalty is not charged once per moving transition. -/
theorem C2_counterexample :
    (find_arm_positions_optimized 5 50 [['C', '4'], ['C', '8'], ['C', '4']] []
        .right).output.map (·.arm_position) = [24, 47, 24] ∧
      (find_arm_positions_optimized 5 50 [['C', '4'], ['C', '8'], ['C', '4']] []
        .right).cost = some 52961 ∧
      specPathCost 5 50 [24, 47, 24] = 52956 ∧
      (52961 : ℚ) ≠ (52956 : ℚ) := by
  refine ⟨?_, ?_, ?_, ?_⟩ <;> decide

/-- C2 amended: whenever the planner returns a finite cost, that cost is
the cumulative-charging total of the returned trajectory: each transition
costs `d + P_dist*d^2` plus `P_move` times the number of moving
transitions up to and including it. -/
theorem C2_amended (mp dpen : ℚ) (notesList : List (List Char))
    (noteTiming : List Timing) (hand : Hand) (c : ℚ)
    (hc : (find_arm_positions_optimized mp dpen notesList noteTiming hand).cost = some c) :
    c = cumulPathCost mp dpen
      ((find_arm_positions_optimized mp dpen notesList noteTiming hand).output.map
        (·.arm_position)) := by
  cases hval : filterValid notesList hand with
  | nil =>
    rw [find_arm_empty mp dpen notesList noteTiming hand hval] at hc ⊢
    have : (0 : ℚ) = c := Option.some_inj.mp hc
    rw [← this]
    rfl
  | cons v vs =>
    rw [find_arm_cons mp dpen notesList noteTiming hand v vs hval] at hc ⊢
    set R := (v :: vs).map (fun x => rangeForNote hand x.w) with hRdef
    set T := effTiming (v :: vs) noteTiming with hTdef
    have hb : ∀ r ∈ R, 1 ≤ r.1 ∧ r.2 ≤ 52 := by
      intro r hrm
      rw [hRdef] at hrm
      rcases List.mem_map.mp hrm with ⟨x, _, rfl⟩
      exact rangeForNote_bounds hand x.w
    have hne : R ≠ [] := by rw [hRdef]; simp
    have hc2 : (runDP mp dpen R T).2.1 = some c := hc
    obtain ⟨_, Hcost, _, _⟩ := runDP_sound mp dpen R T hb hne c hc2
    have hlen1 : (v :: vs).length = T.length := by
      rw [hTdef, effTiming_length]
    have hlen2 : T.length = (runDP mp dpen R T).1.length := by
      rw [runDP_length mp dpen R T ?_ hne]
      · rw [hTdef, hRdef, effTiming_length, List.length_map]
      · rw [hTdef, hRdef, effTiming_length, List.length_map]
    rw [buildOutput_map_arm hand (v :: vs) T _ hlen1 hlen2]
    exact Hcost.symm

set_option maxHeartbeats 2000000 in
unseal Rat.add Rat.mul Rat.inv in
/-- Witness for the amended C2 on the three-note counterexample input. -/
theorem C2_amended_witness :
    (find_arm_positions_optimized 5 50 [['C', '4'], ['C', '8'], ['C', '4']] []
        .right).cost = some 52961 ∧
      (52961 : ℚ) = cumulPathCost 5 50
        ((find_arm_positions_optimized 5 50 [['C', '4'], ['C', '8'], ['C', '4']] []
          .right).output.map (·.arm_position)) :=
  ⟨by decide, C2_amended 5 50 [['C', '4'], ['C', '8'], ['C', '4']] [] .right 52961
    (by decide)⟩

/-- The feasibility check on an input with at least one valid note. -/
theorem planFeasible_cons (notesList : List (List Char)) (noteTiming : List Timing)
    (hand : Hand) (v : VNote) (vs : List VNote)
    (h : filterValid notesList hand = v :: vs) :
    planFeasible notesList noteTiming hand =
      !(feasibleSets (((v :: vs).map (fun x => rangeForNote hand x.w)).headD (0, 0))
        (dpTriples ((v :: vs).map (fun x => rangeForNote hand x.w))
          (effTiming (v :: vs) noteTiming))).isEmpty := by
  unfold planFeasible dpTriples
  rw [h]

set_option maxHeartbeats 1000000 in
unseal Rat.add Rat.mul Rat.inv in
/-- C3 counterexample: on the infeasible both-hands input C8, C8, C4 with
durations 0.2, 0.2, 0.5 the returned trajectory is 52, -1, -1: it carries
no infeasibility marker and its first transition changes the arm position
immediately after a 0.2 s note (0.2 is at most the 0.25 s threshold). -/
theorem C3_counterexample :
    (find_arm_positions_optimized 5 50 [['C', '8'], ['C', '8'], ['C', '4']]
        [⟨0, 1/5, 64⟩, ⟨1/5, 1/5, 64⟩, ⟨2/5, 1/2, 64⟩] .both).output.map
        (·.arm_position) = [52, -1, -1] ∧
      (find_arm_positions_optimized 5 50 [['C', '8'], ['C', '8'], ['C', '4']]
        [⟨0, 1/5, 64⟩, ⟨1/5, 1/5, 64⟩, ⟨2/5, 1/2, 64⟩] .both).output.map
        (·.duration) = [1/5, 1/5, 1/2] ∧
      ((1 : ℚ)/5 ≤ 1/4) ∧ ((52 : ℤ) ≠ -1) := by
  refine ⟨?_, ?_, ?_, ?_⟩ <;> decide

/-- C3 amended: when the short-note guard eliminates every admissible
assignment, the planner returns cost infinity with no infeasibility
marker, and backtracking yields the sentinel -1 as the final arm
position. -/
theorem C3_amended (mp dpen : ℚ) (notesList : List (List Char))
    (noteTiming : List Timing) (hand : Hand)
    (hfeas : planFeasible notesList noteTiming hand = false) :
    (find_arm_positions_optimized mp dpen notesList noteTiming hand).cost = none ∧
      ((find_arm_positions_optimized mp dpen notesList noteTiming hand).output.map
        (·.arm_position)).getLastD 0 = -1 := by
  cases hval : filterValid notesList hand with
  | nil =>
    unfold planFeasible at hfeas
    rw [hval] at hfeas
    exact absurd hfeas (by simp)
  | cons v vs =>
    rw [planFeasible_cons notesList noteTiming hand v vs hval] at hfeas
    rw [find_arm_cons mp dpen notesList noteTiming hand v vs hval]
    set R := (v :: vs).map (fun x => rangeForNote hand x.w) with hRdef
    set T := effTiming (v :: vs) noteTiming with hTdef
    have hfs : feasibleSets (R.headD (0, 0)) (dpTriples R T) = [] := by
      simpa using hfeas
    have hb : ∀ r ∈ R, 1 ≤ r.1 ∧ r.2 ≤ 52 := by
      intro r hrm
      rw [hRdef] at hrm
      rcases List.mem_map.mp hrm with ⟨x, _, rfl⟩
      exact rangeForNote_bounds hand x.w
    have hne : R ≠ [] := by rw [hRdef]; simp
    have hnone : (runDP mp dpen R T).2.1 = none := by
      cases hcost : (runDP mp dpen R T).2.1 with
      | none => rfl
      | some c =>
        exfalso
        obtain ⟨Hadm, _, _, _⟩ := runDP_sound mp dpen R T hb hne c hcost
        exact admissible_feasible _ _ _ Hadm hfs
    refine ⟨hnone, ?_⟩
    have hlen1 : (v :: vs).length = T.length := by
      rw [hTdef, effTiming_length]
    have hlen2 : T.length = (runDP mp dpen R T).1.length := by
      rw [runDP_length mp dpen R T ?_ hne]
      · rw [hTdef, hRdef, effTiming_length, List.length_map]
      · rw [hTdef, hRdef, effTiming_length, List.length_map]
    show ((buildOutput hand (v :: vs) T (runDP mp dpen R T).1).map
      (·.arm_position)).getLastD 0 = -1
    rw [buildOutput_map_arm hand (v :: vs) T _ hlen1 hlen2]
    exact runDP_none mp dpen R T hnone

unseal Rat.add Rat.mul Rat.inv in
/-- Witness for the amended C3 on the infeasible right-hand input C4, C8
with a 0.2 s first note. -/
theorem C3_amended_witness :
    planFeasible [['C', '4'], ['C', '8']] [⟨0, 1/5, 64⟩, ⟨1/2, 1/2, 64⟩] .right
        = false ∧
      ((find_arm_positions_optimized 5 50 [['C', '4'], ['C', '8']]
          [⟨0, 1/5, 64⟩, ⟨1/2, 1/2, 64⟩] .right).cost = none ∧
        ((find_arm_positions_optimized 5 50 [['C', '4'], ['C', '8']]
          [⟨0, 1/5, 64⟩, ⟨1/2, 1/2, 64⟩] .right).output.map
          (·.arm_position)).getLastD 0 = -1) :=
  ⟨by decide,
    C3_amended 5 50 [['C', '4'], ['C', '8']] [⟨0, 1/5, 64⟩, ⟨1/2, 1/2, 64⟩] .right
      (by decide)⟩

set_option maxHeartbeats 1000000 in
unseal Rat.add Rat.mul Rat.inv in
/-- C4: evaluation at the failing input.  On the infeasible both-hands
input C8, C8, B3 with durations 0.2, 0.2, 0.5 the returned trajectory
52, -1, -1 changes arm position right after its first note, whose
duration 0.2 s is at most the 0.25 s threshold. -/
theorem C4_guard_violated :
    (find_arm_positions_optimized 5 50 [['C', '8'], ['C', '8'], ['B', '3']]
        [⟨0, 1/5, 64⟩, ⟨1/5, 1/5, 64⟩, ⟨2/5, 1/2, 64⟩] .both).output.map
        (·.arm_position) = [52, -1, -1] ∧
      (find_arm_positions_optimized 5 50 [['C', '8'], ['C', '8'], ['B', '3']]
        [⟨0, 1/5, 64⟩, ⟨1/5, 1/5, 64⟩, ⟨2/5, 1/2, 64⟩] .both).output.map
        (·.duration) = [1/5, 1/5, 1/2] ∧
      ((1 : ℚ)/5 ≤ 1/4) ∧ ((52 : ℤ) ≠ -1) := by
  refine ⟨?_, ?_, ?_, ?_⟩ <;> decide

unseal Rat.add Rat.mul Rat.inv in
/-- C5 counterexample: on the infeasible right-hand input C4, C8 with a
0.2 s first note the emitted offsets `white_key_index - arm_position` are
25 and 53, violating the claimed right-hand bound of 5. -/
theorem C5_counterexample :
    (find_arm_positions_optimized 5 50 [['C', '4'], ['C', '8']]
        [⟨0, 1/5, 64⟩, ⟨1/2, 1/2, 64⟩] .right).output.map
        (fun p => p.white_key_index - p.arm_position) = [25, 53] ∧
      (find_arm_positions_optimized 5 50 [['C', '4'], ['C', '8']]
        [⟨0, 1/5, 64⟩, ⟨1/2, 1/2, 64⟩] .right).output.map (·.hand)
        = [.right, .right] ∧
      ¬((53 : ℤ) ≤ 5) := by
  refine ⟨?_, ?_, ?_⟩ <;> decide

/-- C5 amended: whenever the planner returns a finite cost, every emitted
note's offset `white_key_index - arm_position` lies in 0..5 on the right
hand and in 0..4 on the left hand. -/
theorem C5_amended (mp dpen : ℚ) (notesList : List (List Char))
    (noteTiming : List Timing) (hand : Hand) (c : ℚ)
    (hc : (find_arm_positions_optimized mp dpen notesList noteTiming hand).cost = some c) :
    ∀ p ∈ (find_arm_positions_optimized mp dpen notesList noteTiming hand).output,
      (hand = .right → 0 ≤ p.white_key_index - p.arm_position ∧
        p.white_key_index - p.arm_position ≤ 5) ∧
      (hand = .left → 0 ≤ p.white_key_index - p.arm_position ∧
        p.white_key_index - p.arm_position ≤ 4) := by
  cases hval : filterValid notesList hand with
  | nil =>
    rw [find_arm_empty mp dpen notesList noteTiming hand hval]
    intro p hp
    exact absurd hp (List.not_mem_nil p)
  | cons v vs =>
    rw [find_arm_cons mp dpen notesList noteTiming hand v vs hval] at hc ⊢
    set R := (v :: vs).map (fun x => rangeForNote hand x.w) with hRdef
    set T := effTiming (v :: vs) noteTiming with hTdef
    have hb : ∀ r ∈ R, 1 ≤ r.1 ∧ r.2 ≤ 52 := by
      intro r hrm
      rw [hRdef] at hrm
      rcases List.mem_map.mp hrm with ⟨x, _, rfl⟩
      exact rangeForNote_bounds hand x.w
    have hne : R ≠ [] := by rw [hRdef]; simp
    have hc2 : (runDP mp dpen R T).2.1 = some c := hc
    obtain ⟨Hadm, _, _, _⟩ := runDP_sound mp dpen R T hb hne c hc2
    have hlenRT : R.length ≤ T.length + 1 := by
      rw [hRdef, hTdef, List.length_map, effTiming_length]
      omega
    have hF : List.Forall₂ (fun r a => inWin r a) R (runDP mp dpen R T).1 :=
      admissible_forall2 R T _ hne hlenRT Hadm
    have hF2 : List.Forall₂ (fun (x : VNote) a => inWin (rangeForNote hand x.w) a)
        (v :: vs) (runDP mp dpen R T).1 := by
      rw [hRdef] at hF
      exact List.forall₂_map_left_iff.mp hF
    intro p hp
    obtain ⟨v', hv', t, a, hR', rfl⟩ :=
      buildOutput_mem_rel hand (fun x a => inWin (rangeForNote hand x.w) a)
        (v :: vs) T (runDP mp dpen R T).1 hF2 p hp
    have hok : handRangeOK hand v'.w = true :=
      filterValid_handRange notesList hand v' (by rw [hval]; exact hv')
    constructor
    · intro hh
      subst hh
      exact inWin_offset_right v'.w a hok hR'
    · intro hh
      subst hh
      exact inWin_offset_left v'.w a hok hR'

unseal Rat.add Rat.mul Rat.inv in
/-- Witness for the amended C5 on the feasible right-hand input C4, D4. -/
theorem C5_amended_witness :
    (find_arm_positions_optimized 5 50 [['C', '4'], ['D', '4']] [] .right).cost
        = some 0 ∧
      ∀ p ∈ (find_arm_positions_optimized 5 50 [['C', '4'], ['D', '4']] []
          .right).output,
        (Hand.right = Hand.right → 0 ≤ p.white_key_index - p.arm_position ∧
          p.white_key_index - p.arm_position ≤ 5) ∧
        (Hand.right = Hand.left → 0 ≤ p.white_key_index - p.arm_position ∧
          p.white_key_index - p.arm_position ≤ 4) :=
  ⟨by decide, C5_amended 5 50 [['C', '4'], ['D', '4']] [] .right 0 (by decide)⟩

unseal Rat.add Rat.mul Rat.inv in
/-- C6 counterexample: on the infeasible right-hand input C4, C4, C8 with
a short middle note, every emitted arm position is the sentinel -1, which
lies in no admissible window (the first note's window is 24..24). -/
theorem C6_counterexample :
    (find_arm_positions_optimized 5 50 [['C', '4'], ['C', '4'], ['C', '8']]
        [⟨0, 1/2, 64⟩, ⟨1/2, 1/5, 64⟩, ⟨7/10, 1/2, 64⟩] .right).output.map
        (·.arm_position) = [-1, -1, -1] ∧
      (find_arm_positions_optimized 5 50 [['C', '4'], ['C', '4'], ['C', '8']]
        [⟨0, 1/2, 64⟩, ⟨1/2, 1/5, 64⟩, ⟨7/10, 1/2, 64⟩] .right).output.map
        (·.white_key_index) = [24, 24, 52] ∧
      ¬inWin (claimWindowRight 24) (-1) := by
  refine ⟨?_, ?_, ?_⟩ <;> decide

/-- C6 amended: the planner's admissible windows are exactly the claimed
per-hand formulas with the forced-position overrides, and whenever the
planner returns a finite cost every emitted arm position lies in its
note's window. -/
theorem C6_amended :
    (∀ w : ℤ, rangeForNote .right w = claimWindowRight w) ∧
      (∀ w : ℤ, rangeForNote .left w = claimWindowLeft w) ∧
      ∀ (mp dpen : ℚ) (notesList : List (List Char)) (noteTiming : List Timing)
        (hand : Hand) (c : ℚ),
        (find_arm_positions_optimized mp dpen notesList noteTiming hand).cost = some c →
        ∀ p ∈ (find_arm_positions_optimized mp dpen notesList noteTiming hand).output,
          (hand = .right → inWin (claimWindowRight p.white_key_index) p.arm_position) ∧
          (hand = .left → inWin (claimWindowLeft p.white_key_index) p.arm_position) := by
  refine ⟨fun w => rfl, fun w => rfl, ?_⟩
  intro mp dpen notesList noteTiming hand c hc
  cases hval : filterValid notesList hand with
  | nil =>
    rw [find_arm_empty mp dpen notesList noteTiming hand hval]
    intro p hp
    exact absurd hp (List.not_mem_nil p)
  | cons v vs =>
    rw [find_arm_cons mp dpen notesList noteTiming hand v vs hval] at hc ⊢
    set R := (v :: vs).map (fun x => rangeForNote hand x.w) with hRdef
    set T := effTiming (v :: vs) noteTiming with hTdef
    have hb : ∀ r ∈ R, 1 ≤ r.1 ∧ r.2 ≤ 52 := by
      intro r hrm
      rw [hRdef] at hrm
      rcases List.mem_map.mp hrm with ⟨x, _, rfl⟩
      exact rangeForNote_bounds hand x.w
    have hne : R ≠ [] := by rw [hRdef]; simp
    have hc2 : (runDP mp dpen R T).2.1 = some c := hc
    obtain ⟨Hadm, _, _, _⟩ := runDP_sound mp dpen R T hb hne c hc2
    have hlenRT : R.length ≤ T.length + 1 := by
      rw [hRdef, hTdef, List.length_map, effTiming_length]
      omega
    have hF : List.Forall₂ (fun r a => inWin r a) R (runDP mp dpen R T).1 :=
      admissible_forall2 R T _ hne hlenRT Hadm
    have hF2 : List.Forall₂ (fun (x : VNote) a => inWin (rangeForNote hand x.w) a)
        (v :: vs) (runDP mp dpen R T).1 := by
      rw [hRdef] at hF
      exact List.forall₂_map_left_iff.mp hF
    intro p hp
    obtain ⟨v', _, t, a, hR', rfl⟩ :=
      buildOutput_mem_rel hand (fun x a => inWin (rangeForNote hand x.w) a)
        (v :: vs) T (runDP mp dpen R T).1 hF2 p hp
    constructor
    · intro hh
      subst hh
      exact hR'
    · intro hh
      subst hh
      exact hR'

unseal Rat.add Rat.mul Rat.inv in
/-- Witness for the amended C6 on the feasible right-hand input C4, E4. -/
theorem C6_amended_witness :
    ∃ p ∈ (find_arm_positions_optimized 5 50 [['C', '4'], ['E', '4']] []
        .right).output,
      inWin (claimWindowRight p.white_key_index) p.arm_position :=
  ⟨(find_arm_positions_optimized 5 50 [['C', '4'], ['E', '4']] []
      .right).output.getD 0 ⟨[], 0, 0, 0, false, 0, 0, 0, 0, .right, false, 0⟩,
    by decide,
    (C6_amended.2.2 5 50 [['C', '4'], ['E', '4']] [] .right 0 (by decide) _
      (by decide)).1 rfl⟩

unseal Rat.add Rat.mul Rat.inv in
/-- C7 counterexample: the right-hand black key Bb4 has no fixed rule (the
rule table only matches sharp spellings), its offset is 5, and the planner
assigns finger 1 where the white-key offset table of the claim gives
finger 5. -/
theorem C7_counterexample :
    (find_arm_positions_optimized 5 50 [['B', 'b', '4']] [] .right).output.map
        (·.finger) = [1] ∧
      (find_arm_positions_optimized 5 50 [['B', 'b', '4']] [] .right).output.map
        (fun p => p.white_key_index - p.arm_position) = [5] ∧
      (find_arm_positions_optimized 5 50 [['B', 'b', '4']] [] .right).output.map
        (·.is_black) = [true] ∧
      (find_arm_positions_optimized 5 50 [['B', 'b', '4']] [] .right).output.map
        (fun p => get_black_key_finger p.note .right) = [-1] ∧
      claimOffsetFinger .right 5 = 5 ∧ ((1 : ℤ) ≠ 5) := by
  refine ⟨?_, ?_, ?_, ?_, ?_, ?_⟩ <;> decide

/-- The extended-pinky flag of the rule-less table is set exactly on its
finger-5-extended entry. -/
theorem amended_ext_eq (hand : Hand) (k : ℤ) :
    (decide ((amendedRuleLessFinger hand k).1 = 5 ∧
        (amendedRuleLessFinger hand k).2 = true))
      = (amendedRuleLessFinger hand k).2 := by
  cases hand <;> unfold amendedRuleLessFinger <;> split_ifs <;> rfl

/-- C7 amended: a black key without a fixed rule is fingered by a separate
table, not the white-key one: on the right hand the table is reversed
(offsets 0..5 give fingers 5,5,4,3,2,1, extended pinky at offset 1); on
the left hand (and in both-hands mode) it coincides with the left
white-key table (offsets 0..4 give 5,4,3,2,1). -/
theorem C7_amended (mp dpen : ℚ) (notesList : List (List Char))
    (noteTiming : List Timing) (hand : Hand) :
    ∀ p ∈ (find_arm_positions_optimized mp dpen notesList noteTiming hand).output,
      is_black_key p.note = true →
      get_black_key_finger p.note hand = -1 →
      p.finger =
          (amendedRuleLessFinger hand (p.white_key_index - p.arm_position)).1 ∧
        p.pinkyExtended =
          (amendedRuleLessFinger hand (p.white_key_index - p.arm_position)).2 := by
  cases hval : filterValid notesList hand with
  | nil =>
    rw [find_arm_empty mp dpen notesList noteTiming hand hval]
    intro p hp
    exact absurd hp (List.not_mem_nil p)
  | cons v vs =>
    rw [find_arm_cons mp dpen notesList noteTiming hand v vs hval]
    set R := (v :: vs).map (fun x => rangeForNote hand x.w) with hRdef
    set T := effTiming (v :: vs) noteTiming with hTdef
    have hlen1 : (v :: vs).length = (runDP mp dpen R T).1.length := by
      have hne : R ≠ [] := by rw [hRdef]; simp
      rw [runDP_length mp dpen R T ?_ hne]
      · rw [hRdef, List.length_map]
      · rw [hTdef, hRdef, effTiming_length, List.length_map]
    intro p hp hblack hrule
    obtain ⟨v', _, t, a, _, rfl⟩ :=
      buildOutput_mem_rel hand (fun _ _ => True) (v :: vs) T (runDP mp dpen R T).1
        (forall2_trivial (v :: vs) _ hlen1) p hp
    have hblack' : is_black_key v'.note = true := hblack
    have hrule' : get_black_key_finger v'.note hand = -1 := hrule
    have hfa : assignFinger hand v'.note v'.w a =
        amendedRuleLessFinger hand (v'.w - a) := by
      unfold assignFinger
      rw [if_pos hblack', if_pos hrule']
      cases hand <;> rfl
    constructor
    · show (assignFinger hand v'.note v'.w a).1 =
        (amendedRuleLessFinger hand (v'.w - a)).1
      rw [hfa]
    · show (decide ((assignFinger hand v'.note v'.w a).1 = 5 ∧
          (assignFinger hand v'.note v'.w a).2 = true)) =
        (amendedRuleLessFinger hand (v'.w - a)).2
      rw [hfa, amended_ext_eq]

unseal Rat.add Rat.mul Rat.inv in
/-- Witness for the amended C7 on the right-hand rule-less black key Bb4. -/
theorem C7_amended_witness :
    ∃ p ∈ (find_arm_positions_optimized 5 50 [['B', 'b', '4']] [] .right).output,
      is_black_key p.note = true ∧ get_black_key_finger p.note .right = -1 ∧
        p.finger =
          (amendedRuleLessFinger .right (p.white_key_index - p.arm_position)).1 :=
  ⟨(find_arm_positions_optimized 5 50 [['B', 'b', '4']] [] .right).output.getD 0
      ⟨[], 0, 0, 0, false, 0, 0, 0, 0, .right, false, 0⟩,
    by decide, by decide, by decide,
    (C7_amended 5 50 [['B', 'b', '4']] [] .right _ (by decide) (by decide)
      (by decide)).1⟩

/-- C10 counterexample: a MIDI file whose only note lives on channel 9 still
contributes its note to the extraction, and the note list built for the
planner contains that channel-9 note's name. -/
theorem C10_counterexample :
    (midi_to_notes [[.noteOn 9 60 64 0, .noteOff 9 60 480]]).map (·.channel) = [9] ∧
      processNotesList (midi_to_notes [[.noteOn 9 60 64 0, .noteOff 9 60 480]])
        false 0 = [['C', '4']] := by
  constructor <;> decide

/-- C10 amended: `midi_to_notes` excludes no note by channel: a matched
note-on/note-off pair of positive duration on any channel, channel 9
included, is extracted, and its name enters the note list that
`process_midi_to_fingering` hands to the planner. -/
theorem C10_amended (c note vel t1 dur : ℕ) (hvel : 0 < vel) (hdur : 0 < dur) :
    midi_to_notes [[.noteOn c note vel t1, .noteOff c note dur]]
        = [⟨0, c, note, get_note_name note, t1, dur, vel⟩] ∧
      processNotesList (midi_to_notes [[.noteOn c note vel t1, .noteOff c note dur]])
        false 0 = [get_note_name note] := by
  have h1 : midi_to_notes [[.noteOn c note vel t1, .noteOff c note dur]]
      = [⟨0, c, note, get_note_name note, t1, dur, vel⟩] := by
    unfold midi_to_notes procTracks procTrack
    simp only [List.foldl, procMsg]
    rw [if_pos hvel]
    simp only [procNoteEnd]
    simp [hvel, hdur]
    simp [procTracks, sortByStart, insertByStart]
  refine ⟨h1, ?_⟩
  rw [h1]
  unfold processNotesList
  simp

/-- Witness for the amended C10 on the channel-9 pair. -/
theorem C10_amended_witness :
    (0 : ℕ) < 64 ∧ (0 : ℕ) < 480 ∧
      midi_to_notes [[.noteOn 9 60 64 0, .noteOff 9 60 480]]
        = [⟨0, 9, 60, get_note_name 60, 0, 480, 64⟩] :=
  ⟨by decide, by decide, (C10_amended 9 60 64 0 480 (by decide) (by decide)).1⟩
